import Mathlib

/-!
# Relationship inference and SELECT rendering of `bob`

A shallow embedding of `orm/gen/drivers/relationships.go` and of
`dialect/psql/select.go`, with the properties of the specification stated
and proved over it.

Conventions of the embedding:

* Go slices are `List`s; a `nil` slice is `[]`.
* Go maps are association lists with pairwise distinct keys, kept in
  insertion order (`GoMap`).  Reading a missing key yields the zero value.
* A Go `panic` (explicit, or an index out of range) is `none`.
* A Go `int` has 64 bits.  The start index of a rendering is an `Int`, and the
  sum `start+len(args)` wraps around (`wrapInt`); a counter bounded by the
  length of a slice is a `Nat`.
-/

namespace Bob

/-! ## Go maps -/

/-- A Go map as an association list; `store` keeps the keys distinct. -/
abbrev GoMap (α β : Type) := List (α × β)

/-- The comma-ok read `v, ok := m[k]`. -/
def GoMap.lookup {α β : Type} [DecidableEq α] : GoMap α β → α → Option β
  | [], _ => none
  | (k, v) :: m, x => if k = x then some v else GoMap.lookup m x

/-- The assignment `m[k] = v`: overwrite when the key is present, add otherwise. -/
def GoMap.store {α β : Type} [DecidableEq α] : GoMap α β → α → β → GoMap α β
  | [], x, y => [(x, y)]
  | (k, v) :: m, x, y => if k = x then (k, y) :: m else (k, v) :: GoMap.store m x y

/-! ## The catalog -/

/-- Modelled from the spec: the declaration of `drivers.Column` is not among
the sources; only the number of columns of a table is read by the code. -/
structure Column where
  Name : String
  deriving DecidableEq, Repr

/-- Modelled from the spec: the declaration of `drivers.Constraint` (and of
`drivers.PrimaryKey`, the same shape) is not among the sources; the code
reads the field `Columns`. -/
structure Constraint where
  Name : String
  Columns : List String
  deriving DecidableEq, Repr

/-- Modelled from the spec: the declaration of `drivers.ForeignKey` is not
among the sources; the code reads these four fields. -/
structure ForeignKey where
  Name : String
  Columns : List String
  ForeignTable : String
  ForeignColumns : List String
  deriving DecidableEq, Repr

/-- Modelled from the spec: the declaration of `drivers.Table` is not among
the sources; the code reads these six fields.  `PKey` is a pointer in the
source, `none` is the nil pointer. -/
structure Table where
  Name : String
  Columns : List Column
  PKey : Option Constraint
  Uniques : List Constraint
  FKeys : List ForeignKey
  IsJoinTable : Bool
  deriving DecidableEq, Repr

/-! ## `sliceMatch`, `hasExactUnique`, `distinctElems`, `IsJoinTable` -/

/-- The inner loop of `sliceMatch`: how often `v1` occurs in `b`. -/
def matchesIn {α : Type} [DecidableEq α] (v1 : α) : List α → Nat
  | [] => 0
  | v2 :: b => (if v1 = v2 then 1 else 0) + matchesIn v1 b

/-- The two nested loops of `sliceMatch`: the number of pairs of positions
holding equal values. -/
def matchCount {α : Type} [DecidableEq α] : List α → List α → Nat
  | [], _ => 0
  | v1 :: a, b => matchesIn v1 b + matchCount a b

/-- `sliceMatch(a, b)`. -/
def sliceMatch {α : Type} [DecidableEq α] (a b : List α) : Bool :=
  if a.length ≠ b.length then false
  else if a.length = 0 then false
  else decide (matchCount a b = a.length)

/-- `hasExactUnique(t, cols...)`. -/
def hasExactUnique (t : Table) (cols : List String) : Bool :=
  if cols.length = 0 then false
  else if (match t.PKey with
      | some pk => sliceMatch pk.Columns cols
      | none => false) then true
  else t.Uniques.any (fun u => sliceMatch u.Columns cols)

/-- The inner loop of `distinctElems`: `false` as soon as `v1` is met in `b`. -/
def notIn {α : Type} [DecidableEq α] (v1 : α) : List α → Bool
  | [] => true
  | v2 :: b => if v1 = v2 then false else notIn v1 b

/-- `distinctElems(a, b)`: no element of `a` equals an element of `b`. -/
def distinctElems {α : Type} [DecidableEq α] : List α → List α → Bool
  | [], _ => true
  | v1 :: a, b => if notIn v1 b then distinctElems a b else false

/-- `IsJoinTable(t)`.  The two indexings `t.FKeys[0]`, `t.FKeys[1]` come after
the guard on `len(t.FKeys)`, so they never fail. -/
def IsJoinTable (t : Table) : Bool :=
  match t.PKey with
  | none => false
  | some pk =>
    match t.FKeys with
    | [fk0, fk1] =>
      if t.Columns.length ≠ pk.Columns.length then false
      else if t.Columns.length ≠ fk0.Columns.length + fk1.Columns.length then false
      else if !distinctElems fk0.Columns fk1.Columns then false
      else true
    | _ => false

/-! ## `BuildRelationships` -/

/-- Modelled from the spec: the declaration of `orm.RelSide` is not among the
sources; the code writes these four fields. -/
structure RelSide where
  From : String
  To : String
  Pairs : GoMap String String
  ToUnique : Bool
  deriving DecidableEq, Repr

/-- Modelled from the spec: the declaration of `orm.Relationship` is not among
the sources; the code writes these two fields. -/
structure Relationship where
  Name : String
  Sides : List RelSide
  deriving DecidableEq, Repr

/-- The type of the result, `map[string][]orm.Relationship`. -/
abbrev RelMap := GoMap String (List Relationship)

/-- The read `relationships[k]`; a missing key reads as the nil slice. -/
def RelMap.get (m : RelMap) (k : String) : List Relationship :=
  (GoMap.lookup m k).getD []

/-- The statement `relationships[k] = append(relationships[k], r)`. -/
def appendRel (m : RelMap) (k : String) (r : Relationship) : RelMap :=
  GoMap.store m k (RelMap.get m k ++ [r])

/-- The first loop of `BuildRelationships`: `tableNameMap[t.Name] = t` for
every table, in order, so a later table replaces an earlier one of its name. -/
def tableNameMap (tables : List Table) : GoMap String Table :=
  tables.foldl (fun m t => GoMap.store m t.Name t) []

/-- The loop over `fk.Columns` that fills `pair1` and `pair2`.  The read
`fk.ForeignColumns[index]` fails when the index is out of range. -/
def pairLoop (foreignColumns : List String) :
    List String → Nat → GoMap String String × GoMap String String →
      Option (GoMap String String × GoMap String String)
  | [], _, pairs => some pairs
  | localCol :: rest, index, (pair1, pair2) =>
    match foreignColumns[index]? with
    | none => none
    | some foreignCol =>
      pairLoop foreignColumns rest (index + 1)
        (GoMap.store pair1 localCol foreignCol, GoMap.store pair2 foreignCol localCol)

/-- `invertMap(from)`.  Go ranges over a map in an unspecified order; here the
entries are visited in insertion order.  When no two keys of `from` carry the
same value the resulting map does not depend on the order. -/
def invertMap (frm : GoMap String String) : GoMap String String :=
  frm.foldl (fun acc kv => GoMap.store acc kv.2 kv.1) []

/-- The type of `fkUniqueMap`; the Go value `[2]bool` is a pair. -/
abbrev UniqueMap := GoMap String (Bool × Bool)

/-- The read `fkUniqueMap[name]`; a missing key reads as `[2]bool{false, false}`. -/
def UniqueMap.get (m : UniqueMap) (name : String) : Bool × Bool :=
  (GoMap.lookup m name).getD (false, false)

/-- One turn of the loop over `t1.FKeys` (source lines 19 to 59), on the state
made of `relationships` and `fkUniqueMap`. -/
def fkStep (tnm : GoMap String Table) (t1 : Table) (st : RelMap × UniqueMap)
    (fk : ForeignKey) : Option (RelMap × UniqueMap) :=
  let localUnique := hasExactUnique t1 fk.Columns
  match GoMap.lookup tnm fk.ForeignTable with
  | none => some st
  | some t2 =>
    let foreignUnique := hasExactUnique t2 fk.ForeignColumns
    let fkUniqueMap := GoMap.store st.2 fk.Name (localUnique, foreignUnique)
    match pairLoop fk.ForeignColumns fk.Columns 0 ([], []) with
    | none => none
    | some (pair1, pair2) =>
      let relationships := appendRel st.1 t1.Name
        { Name := fk.Name,
          Sides := [{ From := t1.Name, To := t2.Name, Pairs := pair1,
                      ToUnique := foreignUnique }] }
      if !t1.IsJoinTable && t1.Name != t2.Name then
        some (appendRel relationships t2.Name
          { Name := fk.Name,
            Sides := [{ From := t2.Name, To := t1.Name, Pairs := pair2,
                        ToUnique := localUnique }] }, fkUniqueMap)
      else
        some (relationships, fkUniqueMap)

/-- The loop over `t1.FKeys`. -/
def fkLoop (tnm : GoMap String Table) (t1 : Table) :
    List ForeignKey → RelMap × UniqueMap → Option (RelMap × UniqueMap)
  | [], st => some st
  | fk :: fks, st =>
    match fkStep tnm t1 st fk with
    | none => none
    | some st1 => fkLoop tnm t1 fks st1

/-- The many-to-many part of the loop body (source lines 65 to 105), run for a
table flagged as a join table. -/
def manyToMany (t1 : Table) (relationships : RelMap) (fkUniqueMap : UniqueMap) :
    Option RelMap :=
  let rels := RelMap.get relationships t1.Name
  if rels.length ≠ 2 then none
  else
    match rels with
    | [r1, r2] =>
      match r1.Sides, r2.Sides with
      | s1 :: _, s2 :: _ =>
        let relationships1 := appendRel relationships s1.To
          { Name := r2.Name,
            Sides := [
              { From := s1.To, To := t1.Name, Pairs := invertMap s1.Pairs,
                ToUnique := (UniqueMap.get fkUniqueMap r1.Name).1 },
              { From := t1.Name, To := s2.To, Pairs := s2.Pairs,
                ToUnique := (UniqueMap.get fkUniqueMap r1.Name).2 }] }
        some (appendRel relationships1 s2.To
          { Name := r1.Name,
            Sides := [
              { From := s2.To, To := t1.Name, Pairs := invertMap s2.Pairs,
                ToUnique := (UniqueMap.get fkUniqueMap r2.Name).1 },
              { From := t1.Name, To := s1.To, Pairs := s1.Pairs,
                ToUnique := (UniqueMap.get fkUniqueMap r2.Name).2 }] })
      | _, _ => none
    | _ => none

/-- One turn of the loop over the tables (source lines 15 to 106). -/
def tableStep (tnm : GoMap String Table) (relationships : RelMap) (t1 : Table) :
    Option RelMap :=
  match fkLoop tnm t1 t1.FKeys (relationships, []) with
  | none => none
  | some (relationships1, fkUniqueMap) =>
    if !t1.IsJoinTable then some relationships1
    else manyToMany t1 relationships1 fkUniqueMap

/-- The loop over the tables. -/
def tableLoop (tnm : GoMap String Table) : List Table → RelMap → Option RelMap
  | [], relationships => some relationships
  | t1 :: ts, relationships =>
    match tableStep tnm relationships t1 with
    | none => none
    | some relationships1 => tableLoop tnm ts relationships1

/-- `BuildRelationships(tables)`; `none` when the call panics. -/
def BuildRelationships (tables : List Table) : Option RelMap :=
  tableLoop (tableNameMap tables) tables []

/-! ## The SELECT statement of `dialect/psql/select.go`

The packages `query` and `expr` are not among the sources.  An expression is
kept as what its `WriteSQL` method does: from a dialect and a start index, the
text it writes to the sink, and the bound values or the error it returns. -/

/-- Modelled from the spec: a bound value (`any` in the source). -/
inductive Arg where
  | int (n : Int)
  | str (s : String)
  deriving DecidableEq, Repr

/-- Modelled from the spec: `query.Dialect`, the strategy that yields the
placeholder of a 1-based index, a Go `int`, and quotes an identifier. -/
structure Dialect where
  WriteArg : Int → String
  WriteQuoted : String → String

/-- What a call writing to the sink does: the text written, and the returned
pair `([]any, error)`, an error or the bound values. -/
abbrev Written := String × Except String (List Arg)

/-- Modelled from the spec: `query.Expression`, by its method
`WriteSQL(w, d, start)`; the start index is a Go `int`. -/
abbrev Expression := Dialect → Int → Written

/-- The Go `int` of 64 bits that an integer wraps around to: the value between
`-9223372036854775808` and `9223372036854775807` congruent to it modulo `2^64`. -/
def wrapInt (x : Int) : Int :=
  (x + 9223372036854775808) % 18446744073709551616 - 9223372036854775808

/-- The sum `start+len(args)` of the source, computed on the Go `int`. -/
def addLen (start : Int) (args : List Arg) : Int :=
  wrapInt (start + args.length)

namespace query

/-- Modelled from the spec: `query.ExpressIf` is not among the sources.  A
clause is gated by its presence predicate: with a false condition nothing is
written and nothing is bound; otherwise the text before, the expression and,
when the expression succeeds, the text after are written. -/
def ExpressIf (d : Dialect) (start : Int) (e : Expression) (cond : Bool)
    (before after : String) : Written :=
  if !cond then ("", .ok [])
  else
    match e d start with
    | (t, .error err) => (before ++ t, .error err)
    | (t, .ok args) => (before ++ t ++ after, .ok args)

/-- The loop of `query.ExpressSlice` over the expressions: the separator
before every expression but the first, each expression started at the running
index. -/
def expressEach (d : Dialect) (start : Int) (sep : String) :
    List Expression → Bool → String → List Arg → Written
  | [], _, w, args => (w, .ok args)
  | e :: es, first, w, args =>
    let w1 := if first then w else w ++ sep
    match e d (addLen start args) with
    | (t, .error err) => (w1 ++ t, .error err)
    | (t, .ok newArgs) => expressEach d start sep es false (w1 ++ t) (args ++ newArgs)

/-- Modelled from the spec: `query.ExpressSlice` is not among the sources.
With no expression nothing is written and nothing is bound; otherwise the text
before, the expressions joined by the separator and the text after. -/
def ExpressSlice (d : Dialect) (start : Int) (expressions : List Expression)
    (before sep after : String) : Written :=
  if expressions.length = 0 then ("", .ok [])
  else
    match expressEach d start sep expressions true before [] with
    | (w, .error err) => (w, .error err)
    | (w, .ok args) => (w ++ after, .ok args)

end query

namespace expr

/-- Modelled from the spec: `expr.With`, the list of CTEs. -/
structure With where
  Recursive : Bool := false
  CTEs : List Expression := []

/-- Modelled from the spec: `expr.Select`, the projections and the distinct
flag and list. -/
structure Select where
  Columns : List Expression := []
  Distinct : Bool := false
  DistinctOn : List Expression := []

/-- Modelled from the spec: `expr.FromItems`, the ordered from-items. -/
structure FromItems where
  Items : List Expression := []

/-- Modelled from the spec: `expr.Where`, the conditions. -/
structure Where where
  Conditions : List Expression := []

/-- Modelled from the spec: `expr.GroupBy`, the groups. -/
structure GroupBy where
  Groups : List Expression := []
  Distinct : Bool := false

/-- Modelled from the spec: `expr.Having`, the conditions. -/
structure Having where
  Conditions : List Expression := []

set_option linter.dupNamespace false in
/-- Modelled from the spec: `expr.Windows`, the named window definitions. -/
structure Windows where
  Windows : List (String × Expression) := []

/-- Modelled from the spec: `expr.Combine`, the strategy tag, the right-hand
sub-statement (`none` is the nil interface) and the ALL flag. -/
structure Combine where
  Strategy : String := ""
  Query : Option Expression := none
  All : Bool := false

/-- Modelled from the spec: `expr.OrderBy`, the ordering expressions. -/
structure OrderBy where
  Expressions : List Expression := []

/-- Modelled from the spec: `expr.Limit`; `Count` is a pointer in the source. -/
structure Limit where
  Count : Option Int := none

/-- Modelled from the spec: `expr.Offset`; `Count` is a pointer in the source. -/
structure Offset where
  Count : Option Int := none

/-- Modelled from the spec: `expr.Fetch`; `Count` is a pointer in the source. -/
structure Fetch where
  Count : Option Int := none
  WithTies : Bool := false

/-- Modelled from the spec: `expr.For`, the lock strength and the tables. -/
structure For where
  Strength : String := ""
  Tables : List String := []

/-- Modelled from the spec: the `WriteSQL` methods of the clause containers of
package `expr`, which are not among the sources; they are a parameter of the
rendering. -/
structure Writers where
  With : With → Expression
  Select : Select → Expression
  Where : Where → Expression
  GroupBy : GroupBy → Expression
  Having : Having → Expression
  Windows : Windows → Expression
  Combine : Combine → Expression
  OrderBy : OrderBy → Expression
  Limit : Limit → Expression
  Offset : Offset → Expression
  Fetch : Fetch → Expression
  For : For → Expression

end expr

/-- `SelectQuery`: one clause container of each kind, embedded in the source. -/
structure SelectQuery where
  With : expr.With := {}
  Select : expr.Select := {}
  FromItems : expr.FromItems := {}
  Where : expr.Where := {}
  GroupBy : expr.GroupBy := {}
  Having : expr.Having := {}
  Windows : expr.Windows := {}
  Combine : expr.Combine := {}
  OrderBy : expr.OrderBy := {}
  Limit : expr.Limit := {}
  Offset : expr.Offset := {}
  Fetch : expr.Fetch := {}
  For : expr.For := {}

/-- `SelectQuery.WriteSQL(w, d, start)`: the text written to `w` and the
returned pair.  `x` stands for the `WriteSQL` methods of the clause containers;
the index `start+len(args)` of each call is the sum on the Go `int`. -/
def SelectQuery.WriteSQL (x : expr.Writers) (s : SelectQuery) (d : Dialect) (start : Int) :
    Written :=
  let w := ""
  let args : List Arg := []
  match query.ExpressIf d (addLen start args) (x.With s.With)
      (decide (s.With.CTEs.length > 0)) "\n" "" with
  | (t, .error err) => (w ++ t, .error err)
  | (t, .ok withArgs) =>
  let w := w ++ t
  let args := args ++ withArgs
  match query.ExpressIf d (addLen start args) (x.Select s.Select) true "\n" "" with
  | (t, .error err) => (w ++ t, .error err)
  | (t, .ok selArgs) =>
  let w := w ++ t
  let args := args ++ selArgs
  match query.ExpressSlice d (addLen start args) s.FromItems.Items "\nFROM " ",\n" "" with
  | (t, .error err) => (w ++ t, .error err)
  | (t, .ok fromArgs) =>
  let w := w ++ t
  let args := args ++ fromArgs
  match query.ExpressIf d (addLen start args) (x.Where s.Where)
      (decide (s.Where.Conditions.length > 0)) "\n" "" with
  | (t, .error err) => (w ++ t, .error err)
  | (t, .ok whereArgs) =>
  let w := w ++ t
  let args := args ++ whereArgs
  match query.ExpressIf d (addLen start args) (x.GroupBy s.GroupBy)
      (decide (s.GroupBy.Groups.length > 0)) "\n" "" with
  | (t, .error err) => (w ++ t, .error err)
  | (t, .ok groupByArgs) =>
  let w := w ++ t
  let args := args ++ groupByArgs
  match query.ExpressIf d (addLen start args) (x.Having s.Having)
      (decide (s.Having.Conditions.length > 0)) "\n" "" with
  | (t, .error err) => (w ++ t, .error err)
  | (t, .ok havingArgs) =>
  let w := w ++ t
  let args := args ++ havingArgs
  match query.ExpressIf d (addLen start args) (x.Windows s.Windows)
      (decide (s.Windows.Windows.length > 0)) "\n" "" with
  | (t, .error err) => (w ++ t, .error err)
  | (t, .ok windowArgs) =>
  let w := w ++ t
  let args := args ++ windowArgs
  match query.ExpressIf d (addLen start args) (x.Combine s.Combine)
      s.Combine.Query.isSome "\n" "" with
  | (t, .error err) => (w ++ t, .error err)
  | (t, .ok combineArgs) =>
  let w := w ++ t
  let args := args ++ combineArgs
  match query.ExpressIf d (addLen start args) (x.OrderBy s.OrderBy)
      (decide (s.OrderBy.Expressions.length > 0)) "\n" "" with
  | (t, .error err) => (w ++ t, .error err)
  | (t, .ok orderArgs) =>
  let w := w ++ t
  let args := args ++ orderArgs
  match query.ExpressIf d (addLen start args) (x.Limit s.Limit)
      s.Limit.Count.isSome "\n" "" with
  | (t, .error err) => (w ++ t, .error err)
  | (t, .ok _) =>
  let w := w ++ t
  match query.ExpressIf d (addLen start args) (x.Offset s.Offset)
      s.Offset.Count.isSome "\n" "" with
  | (t, .error err) => (w ++ t, .error err)
  | (t, .ok _) =>
  let w := w ++ t
  match query.ExpressIf d (addLen start args) (x.Fetch s.Fetch)
      s.Fetch.Count.isSome "\n" "" with
  | (t, .error err) => (w ++ t, .error err)
  | (t, .ok _) =>
  let w := w ++ t
  match query.ExpressIf d (addLen start args) (x.For s.For)
      (decide (s.For.Strength ≠ "")) "\n" "" with
  | (t, .error err) => (w ++ t, .error err)
  | (t, .ok forArgs) =>
  let w := w ++ t
  let args := args ++ forArgs
  (w ++ "\n", .ok args)

/-! ## What one turn of each loop appends

The functions below are not in the source: they name, for the proofs, the
entries that the loops of `BuildRelationships` append. -/

/-- Store a list of pairs, one after the other. -/
def storeAll (m : GoMap String String) (ps : List (String × String)) :
    GoMap String String :=
  ps.foldl (fun acc p => GoMap.store acc p.1 p.2) m

/-- The map `pair1` that the loop over `fk.Columns` builds when it succeeds. -/
def pair1Of (fk : ForeignKey) : GoMap String String :=
  storeAll [] (fk.Columns.zip fk.ForeignColumns)

/-- The map `pair2` that the loop over `fk.Columns` builds when it succeeds. -/
def pair2Of (fk : ForeignKey) : GoMap String String :=
  storeAll [] (fk.ForeignColumns.zip fk.Columns)

/-- The relationship appended to the list of `t1` for its foreign key `fk`
with target table `t2` (source lines 38 to 46). -/
def ownRel (t1 t2 : Table) (fk : ForeignKey) : Relationship :=
  { Name := fk.Name,
    Sides := [{ From := t1.Name, To := t2.Name, Pairs := pair1Of fk,
                ToUnique := hasExactUnique t2 fk.ForeignColumns }] }

/-- The relationship appended to the list of `t2` for the foreign key `fk` of
`t1` (source lines 49 to 57). -/
def mirrorRel (t1 t2 : Table) (fk : ForeignKey) : Relationship :=
  { Name := fk.Name,
    Sides := [{ From := t2.Name, To := t1.Name, Pairs := pair2Of fk,
                ToUnique := hasExactUnique t1 fk.Columns }] }

/-- The appends of one turn of the loop over `t1.FKeys`, as pairs of a key of
`relationships` and the appended relationship, in order. -/
def fkEmits (tnm : GoMap String Table) (t1 : Table) (fk : ForeignKey) :
    List (String × Relationship) :=
  match GoMap.lookup tnm fk.ForeignTable with
  | none => []
  | some t2 =>
    (t1.Name, ownRel t1 t2 fk) ::
      (if !t1.IsJoinTable && t1.Name != t2.Name then [(t2.Name, mirrorRel t1 t2 fk)]
       else [])

/-- The foreign key does not make the loop over its columns read
`fk.ForeignColumns` out of range: its target table is missing, or it has at
least as many target columns as local columns. -/
def fkInRange (tnm : GoMap String Table) (fk : ForeignKey) : Prop :=
  GoMap.lookup tnm fk.ForeignTable = none ∨ fk.Columns.length ≤ fk.ForeignColumns.length

/-- The relationships appended under the key `k`, in order. -/
def keyed (k : String) (evs : List (String × Relationship)) : List Relationship :=
  (evs.filter (fun e => decide (e.1 = k))).map (fun e => e.2)

/-- The two relationships that the many-to-many part appends, with their keys. -/
def manyEmits (t1 : Table) (fkUniqueMap : UniqueMap) (r1 r2 : Relationship)
    (s1 s2 : RelSide) : List (String × Relationship) :=
  [(s1.To,
    { Name := r2.Name,
      Sides := [
        { From := s1.To, To := t1.Name, Pairs := invertMap s1.Pairs,
          ToUnique := (UniqueMap.get fkUniqueMap r1.Name).1 },
        { From := t1.Name, To := s2.To, Pairs := s2.Pairs,
          ToUnique := (UniqueMap.get fkUniqueMap r1.Name).2 }] }),
   (s2.To,
    { Name := r1.Name,
      Sides := [
        { From := s2.To, To := t1.Name, Pairs := invertMap s2.Pairs,
          ToUnique := (UniqueMap.get fkUniqueMap r2.Name).1 },
        { From := t1.Name, To := s1.To, Pairs := s1.Pairs,
          ToUnique := (UniqueMap.get fkUniqueMap r2.Name).2 }] })]

/-- The map `fkUniqueMap` after the loop over the two foreign keys `FK1` to `A`
and `FK2` to `B` of a table `J`. -/
def joinUniqueMap (A B J : Table) (FK1 FK2 : ForeignKey) : UniqueMap :=
  GoMap.store
    (GoMap.store [] FK1.Name
      (hasExactUnique J FK1.Columns, hasExactUnique A FK1.ForeignColumns))
    FK2.Name (hasExactUnique J FK2.Columns, hasExactUnique B FK2.ForeignColumns)

/-- The map after the turn of the loop for a flagged table `J` with the two
foreign keys `FK1` to `A` and `FK2` to `B`, started on the empty map. -/
def joinResult (A B J : Table) (FK1 FK2 : ForeignKey) : RelMap :=
  [(J.Name, [ownRel J A FK1, ownRel J B FK2]),
   (A.Name,
    [{ Name := FK2.Name,
       Sides := [
         { From := A.Name, To := J.Name, Pairs := invertMap (pair1Of FK1),
           ToUnique := (UniqueMap.get (joinUniqueMap A B J FK1 FK2) FK1.Name).1 },
         { From := J.Name, To := B.Name, Pairs := pair1Of FK2,
           ToUnique := (UniqueMap.get (joinUniqueMap A B J FK1 FK2) FK1.Name).2 }] }]),
   (B.Name,
    [{ Name := FK1.Name,
       Sides := [
         { From := B.Name, To := J.Name, Pairs := invertMap (pair1Of FK2),
           ToUnique := (UniqueMap.get (joinUniqueMap A B J FK1 FK2) FK2.Name).1 },
         { From := J.Name, To := A.Name, Pairs := pair1Of FK1,
           ToUnique := (UniqueMap.get (joinUniqueMap A B J FK1 FK2) FK2.Name).2 }] }])]

/-! ## Predicates used to state the properties -/

/-- Some side of the relationship goes from the table `a` to the table `b`. -/
def goesFromTo (a b : String) (r : Relationship) : Bool :=
  r.Sides.any (fun s => decide (s.From = a) && decide (s.To = b))

/-- The relationship has a single side, and it goes from `a` to `b`. -/
def singleSideFromTo (a b : String) (r : Relationship) : Bool :=
  match r.Sides with
  | [s] => decide (s.From = a) && decide (s.To = b)
  | _ => false

/-- The foreign key targets the table named `name`. -/
def targets (name : String) (fk : ForeignKey) : Bool :=
  decide (fk.ForeignTable = name)

/-- The list is made of one-sided relationships followed by two-sided ones. -/
def OnesThenTwos (l : List Relationship) : Prop :=
  ∃ ones twos, l = ones ++ twos ∧ (∀ r ∈ ones, r.Sides.length = 1) ∧
    ∀ r ∈ twos, r.Sides.length = 2

/-- Processing the tables in catalog order reaches a table flagged as a join
table whose list does not hold exactly two relationships right after the
foreign keys of that table have been processed. -/
def reachesBadJoinTable (tables : List Table) : Prop :=
  ∃ pre t post m st, tables = pre ++ t :: post ∧
    tableLoop (tableNameMap tables) pre [] = some m ∧
    fkLoop (tableNameMap tables) t t.FKeys (m, []) = some st ∧
    t.IsJoinTable = true ∧ (RelMap.get st.1 t.Name).length ≠ 2

/-- Every relationship of every list has at least one side. -/
def SidesNonempty (m : RelMap) : Prop :=
  ∀ k, ∀ r ∈ RelMap.get m k, r.Sides ≠ []

/-- Every foreign key of the catalog has at least as many target columns as
local columns. -/
def enoughTargetColumns (tables : List Table) : Prop :=
  ∀ t ∈ tables, ∀ fk ∈ t.FKeys, fk.Columns.length ≤ fk.ForeignColumns.length

/-! ## Sample catalogs -/

/-- A table whose primary key is on the columns `a`, `b`. -/
def pairKeyTable : Table :=
  { Name := "t", Columns := [⟨"a"⟩, ⟨"b"⟩], PKey := some ⟨"t_pkey", ["a", "b"]⟩,
    Uniques := [], FKeys := [], IsJoinTable := false }

/-- A table whose primary key lists no column. -/
def emptyKeyTable : Table :=
  { Name := "t", Columns := [], PKey := some ⟨"t_pkey", []⟩,
    Uniques := [], FKeys := [], IsJoinTable := false }

/-- The table of users: `users(id pk)`. -/
def usersTable : Table :=
  { Name := "users", Columns := [⟨"id"⟩], PKey := some ⟨"users_pkey", ["id"]⟩,
    Uniques := [], FKeys := [], IsJoinTable := false }

/-- The table of posts: `posts(id pk, user_id fk to users.id)`. -/
def postsTable : Table :=
  { Name := "posts", Columns := [⟨"id"⟩, ⟨"user_id"⟩],
    PKey := some ⟨"posts_pkey", ["id"]⟩, Uniques := [],
    FKeys := [⟨"posts_user_id_fkey", ["user_id"], "users", ["id"]⟩],
    IsJoinTable := false }

/-- A table with a foreign key whose target column `x` is listed twice. -/
def repeatedTargetChild : Table :=
  { Name := "child", Columns := [⟨"a"⟩, ⟨"b"⟩], PKey := none, Uniques := [],
    FKeys := [⟨"child_parent_fkey", ["a", "b"], "parent", ["x", "x"]⟩],
    IsJoinTable := false }

/-- The target table of `repeatedTargetChild`. -/
def repeatedTargetParent : Table :=
  { Name := "parent", Columns := [⟨"x"⟩], PKey := some ⟨"parent_pkey", ["x"]⟩,
    Uniques := [], FKeys := [], IsJoinTable := false }

/-- A table with a foreign key to itself: `nodes(id pk, parent_id fk to nodes.id)`. -/
def nodesTable : Table :=
  { Name := "nodes", Columns := [⟨"id"⟩, ⟨"parent_id"⟩],
    PKey := some ⟨"nodes_pkey", ["id"]⟩, Uniques := [],
    FKeys := [⟨"nodes_parent_id_fkey", ["parent_id"], "nodes", ["id"]⟩],
    IsJoinTable := false }

/-- The table of roles: `roles(id pk)`. -/
def rolesTable : Table :=
  { Name := "roles", Columns := [⟨"id"⟩], PKey := some ⟨"roles_pkey", ["id"]⟩,
    Uniques := [], FKeys := [], IsJoinTable := false }

/-- The foreign key of `user_roles` to `users`. -/
def userRolesUserKey : ForeignKey :=
  ⟨"user_roles_user_id_fkey", ["user_id"], "users", ["id"]⟩

/-- The foreign key of `user_roles` to `roles`. -/
def userRolesRoleKey : ForeignKey :=
  ⟨"user_roles_role_id_fkey", ["role_id"], "roles", ["id"]⟩

/-- The join table `user_roles(user_id fk to users.id, role_id fk to roles.id)`
with the primary key `(user_id, role_id)`. -/
def userRolesTable : Table :=
  { Name := "user_roles", Columns := [⟨"user_id"⟩, ⟨"role_id"⟩],
    PKey := some ⟨"user_roles_pkey", ["user_id", "role_id"]⟩, Uniques := [],
    FKeys := [userRolesUserKey, userRolesRoleKey], IsJoinTable := true }

/-- A table of labels without any uniqueness constraint: `labels(code)`. -/
def labelsTable : Table :=
  { Name := "labels", Columns := [⟨"code"⟩], PKey := none, Uniques := [], FKeys := [],
    IsJoinTable := false }

/-- The join table `user_labels(user_id fk to users.id, label_code fk to
labels.code)` with the primary key `(user_id, label_code)`. -/
def userLabelsTable : Table :=
  { Name := "user_labels", Columns := [⟨"user_id"⟩, ⟨"label_code"⟩],
    PKey := some ⟨"user_labels_pkey", ["user_id", "label_code"]⟩, Uniques := [],
    FKeys := [⟨"user_labels_user_id_fkey", ["user_id"], "users", ["id"]⟩,
              ⟨"user_labels_label_code_fkey", ["label_code"], "labels", ["code"]⟩],
    IsJoinTable := true }

/-- A table that is not flagged, with a foreign key to itself that names two
local columns and one target column. -/
def shortKeyTable : Table :=
  { Name := "nodes", Columns := [⟨"id"⟩, ⟨"parent_id"⟩, ⟨"tenant_id"⟩],
    PKey := some ⟨"nodes_pkey", ["id"]⟩, Uniques := [],
    FKeys := [⟨"nodes_parent_id_fkey", ["parent_id", "tenant_id"], "nodes", ["id"]⟩],
    IsJoinTable := false }

/-! ## Sample statements -/

/-- A dialect that writes every placeholder as `?`. -/
def questionDialect : Dialect :=
  { WriteArg := fun _ => "?", WriteQuoted := fun name => name }

/-- An expression that writes a fixed text and binds nothing. -/
def rawText (text : String) : Expression :=
  fun _ _ => (text, .ok [])

/-- An expression that compares a column with a bound value. -/
def columnEquals (column : String) (value : Arg) : Expression :=
  fun d start => (column ++ " = " ++ d.WriteArg start, .ok [value])

/-- A keyword followed by expressions joined by a separator. -/
def keywordList (keyword sep : String) (es : List Expression) : Expression :=
  fun d start => query.expressEach d start sep es true keyword []

/-- Sample `WriteSQL` methods for the clause containers. -/
def sampleWriters : expr.Writers :=
  { With := fun c => keywordList "WITH " ", " c.CTEs
    Select := fun c =>
      if c.Columns.length = 0 then rawText "SELECT *"
      else keywordList "SELECT " ", " c.Columns
    Where := fun c => keywordList "WHERE " " AND " c.Conditions
    GroupBy := fun c => keywordList "GROUP BY " ", " c.Groups
    Having := fun c => keywordList "HAVING " " AND " c.Conditions
    Windows := fun c => keywordList "WINDOW " ", " (c.Windows.map (fun nw => nw.2))
    Combine := fun c d start =>
      match c.Query with
      | none => ("", .ok [])
      | some q =>
        let r := q d start
        (c.Strategy ++ (if c.All then " ALL " else " ") ++ r.1, r.2)
    OrderBy := fun c => keywordList "ORDER BY " ", " c.Expressions
    Limit := fun _ => rawText "LIMIT"
    Offset := fun _ => rawText "OFFSET"
    Fetch := fun _ => rawText "FETCH"
    For := fun c => rawText ("FOR " ++ c.Strength) }

/-- The statement `SELECT * FROM users`. -/
def selectUsers : SelectQuery :=
  { FromItems := { Items := [rawText "users"] } }

/-- The statement `SELECT * FROM users WHERE id = ? AND name = ?`. -/
def selectUsersWhere : SelectQuery :=
  { FromItems := { Items := [rawText "users"] },
    Where := { Conditions := [columnEquals "id" (.int 7), columnEquals "name" (.str "bob")] } }

/-- The number of pairs of positions, one of `a` and one of `b`, that hold
equal values. -/
def equalPairs {α : Type} [DecidableEq α] (a b : List α) : Nat :=
  ((a.product b).filter (fun p => decide (p.1 = p.2))).length

/-- A table that references the join table `user_roles`:
`grants(id pk, user_id, role_id, fk (user_id, role_id) to user_roles)`. -/
def grantsTable : Table :=
  { Name := "grants", Columns := [⟨"id"⟩, ⟨"user_id"⟩, ⟨"role_id"⟩],
    PKey := some ⟨"grants_pkey", ["id"]⟩, Uniques := [],
    FKeys := [⟨"grants_user_role_fkey", ["user_id", "role_id"], "user_roles",
                ["user_id", "role_id"]⟩],
    IsJoinTable := false }

/-- The catalog is well formed: pairwise distinct table names, every foreign
key with non-empty local and target column lists of equal length and a target
table in the catalog, every flag equal to `IsJoinTable` of its table. -/
def wellFormedCatalog (tables : List Table) : Bool :=
  decide ((tables.map (fun t => t.Name)).Nodup) &&
  tables.all (fun t =>
    t.FKeys.all (fun fk =>
      decide (fk.Columns ≠ []) && decide (fk.ForeignColumns ≠ []) &&
      decide (fk.Columns.length = fk.ForeignColumns.length) &&
      tables.any (fun t2 => decide (t2.Name = fk.ForeignTable))) &&
    decide (t.IsJoinTable = IsJoinTable t))

/-! ## The calls of `WriteSQL`, one by one

The thirteen blocks of `WriteSQL` have one shape: a call of `query.ExpressIf`
or `query.ExpressSlice` at the index `start+len(args)`, an early return on
error, and the bound values appended to `args` or dropped. -/

/-- One block of `WriteSQL`: whether the source appends the bound values of the
call to `args`, the presence predicate passed to the call, and the call as a
function of its start index. -/
structure ClauseCall where
  kept : Bool
  present : Bool
  run : Int → Written

/-- The thirteen calls of `WriteSQL`, in the order of the source. -/
def SelectQuery.calls (x : expr.Writers) (s : SelectQuery) (d : Dialect) : List ClauseCall :=
  [ { kept := true, present := decide (s.With.CTEs.length > 0),
      run := fun i => query.ExpressIf d i (x.With s.With)
        (decide (s.With.CTEs.length > 0)) "\n" "" },
    { kept := true, present := true,
      run := fun i => query.ExpressIf d i (x.Select s.Select) true "\n" "" },
    { kept := true, present := decide (s.FromItems.Items.length ≠ 0),
      run := fun i => query.ExpressSlice d i s.FromItems.Items "\nFROM " ",\n" "" },
    { kept := true, present := decide (s.Where.Conditions.length > 0),
      run := fun i => query.ExpressIf d i (x.Where s.Where)
        (decide (s.Where.Conditions.length > 0)) "\n" "" },
    { kept := true, present := decide (s.GroupBy.Groups.length > 0),
      run := fun i => query.ExpressIf d i (x.GroupBy s.GroupBy)
        (decide (s.GroupBy.Groups.length > 0)) "\n" "" },
    { kept := true, present := decide (s.Having.Conditions.length > 0),
      run := fun i => query.ExpressIf d i (x.Having s.Having)
        (decide (s.Having.Conditions.length > 0)) "\n" "" },
    { kept := true, present := decide (s.Windows.Windows.length > 0),
      run := fun i => query.ExpressIf d i (x.Windows s.Windows)
        (decide (s.Windows.Windows.length > 0)) "\n" "" },
    { kept := true, present := s.Combine.Query.isSome,
      run := fun i => query.ExpressIf d i (x.Combine s.Combine)
        s.Combine.Query.isSome "\n" "" },
    { kept := true, present := decide (s.OrderBy.Expressions.length > 0),
      run := fun i => query.ExpressIf d i (x.OrderBy s.OrderBy)
        (decide (s.OrderBy.Expressions.length > 0)) "\n" "" },
    { kept := false, present := s.Limit.Count.isSome,
      run := fun i => query.ExpressIf d i (x.Limit s.Limit) s.Limit.Count.isSome "\n" "" },
    { kept := false, present := s.Offset.Count.isSome,
      run := fun i => query.ExpressIf d i (x.Offset s.Offset) s.Offset.Count.isSome "\n" "" },
    { kept := false, present := s.Fetch.Count.isSome,
      run := fun i => query.ExpressIf d i (x.Fetch s.Fetch) s.Fetch.Count.isSome "\n" "" },
    { kept := true, present := decide (s.For.Strength ≠ ""),
      run := fun i => query.ExpressIf d i (x.For s.For)
        (decide (s.For.Strength ≠ "")) "\n" "" } ]

/-- Run calls one after the other as `WriteSQL` does, from the text `w` written
so far and the values `args` bound so far; the first error stops the run. -/
def runCalls (start : Int) : List ClauseCall → String → List Arg → Written
  | [], w, args => (w, .ok args)
  | c :: cs, w, args =>
    match c.run (addLen start args) with
    | (t, .error err) => (w ++ t, .error err)
    | (t, .ok newArgs) =>
      runCalls start cs (w ++ t) (if c.kept then args ++ newArgs else args)

/-- The end of `WriteSQL`: the terminating newline, written when no call failed. -/
def finishWrite : Written → Written
  | (w, .error err) => (w, .error err)
  | (w, .ok args) => (w ++ "\n", .ok args)

/-- An expression whose rendering fails, after writing nothing. -/
def failingExpression (message : String) : Expression :=
  fun _ _ => ("", .error message)

/-- The statement `SELECT * FROM users WHERE id = ? AND name = ? LIMIT FOR UPDATE`. -/
def selectUsersLocked : SelectQuery :=
  { FromItems := { Items := [rawText "users"] },
    Where := { Conditions := [columnEquals "id" (.int 7), columnEquals "name" (.str "bob")] },
    Limit := { Count := some 10 },
    For := { Strength := "UPDATE" } }

/-- A statement whose second WHERE condition fails to render, with an ORDER BY
clause after it. -/
def selectUsersFailing : SelectQuery :=
  { FromItems := { Items := [rawText "users"] },
    Where := { Conditions := [columnEquals "id" (.int 7), failingExpression "bad condition"] },
    OrderBy := { Expressions := [rawText "id"] } }

/-- Writers as `sampleWriters`, but whose LIMIT clause binds its count, outside
the reference grammar. -/
def bindingLimitWriters : expr.Writers :=
  { sampleWriters with
    Limit := fun c d start =>
      ("LIMIT " ++ d.WriteArg start, .ok [Arg.int (c.Count.getD 0)]) }

/-! ## Modifiers of the SELECT statement

The package `mods` is not among the sources.  A statement is a value here, so
a modifier, which mutates the statement through its pointer in the source, is
the function from the statement before to the statement after. -/

namespace mods

/-- Modelled from the spec: `mods.QueryMod[Q]`, the capability "apply to a
statement". -/
structure QueryMod (Q : Type) where
  Apply : Q → Q

/-- Modelled from the spec: `mods.Combine[Q]`, the modifier of a set
operation: it stores the strategy tag, the right-hand sub-statement (`none`
is the nil interface) and the ALL flag. -/
structure Combine where
  Strategy : String
  Query : Option Expression
  All : Bool

/-- Modelled from the spec: the method `Apply` of `mods.Combine` is not among
the sources; it replaces the combinator slot of the statement. -/
def Combine.Apply (m : Combine) (s : SelectQuery) : SelectQuery :=
  { s with Combine := { Strategy := m.Strategy, Query := m.Query, All := m.All } }

/-- A set-operation modifier seen as a `mods.QueryMod`, as the constructors of
the source return it. -/
def Combine.toQueryMod (m : Combine) : QueryMod SelectQuery :=
  { Apply := m.Apply }

end mods

/-- Modelled from the spec: the strategy tag `expr.Union`. -/
def expr.Union : String := "UNION"

/-- Modelled from the spec: the strategy tag `expr.Intersect`. -/
def expr.Intersect : String := "INTERSECT"

/-- Modelled from the spec: the strategy tag `expr.Except`. -/
def expr.Except : String := "EXCEPT"

/-- `SelectQuery.Apply(mods...)`: the loop over the modifiers. -/
def SelectQuery.Apply (s : SelectQuery) : List (mods.QueryMod SelectQuery) → SelectQuery
  | [] => s
  | m :: ms => SelectQuery.Apply (m.Apply s) ms

/-- The loop of `Select` over the modifiers. -/
def selectLoop : SelectQuery → List (mods.QueryMod SelectQuery) → SelectQuery
  | s, [] => s
  | s, m :: ms => selectLoop (m.Apply s) ms

/-- `Select(mods...)`: a new statement, then the loop over the modifiers. -/
def Select (ms : List (mods.QueryMod SelectQuery)) : SelectQuery :=
  selectLoop {} ms

/-- `SelectQM.Union(q)`. -/
def SelectQM.Union (q : Option Expression) : mods.Combine :=
  { Strategy := expr.Union, Query := q, All := false }

/-- `SelectQM.UnionAll(q)`. -/
def SelectQM.UnionAll (q : Option Expression) : mods.Combine :=
  { Strategy := expr.Union, Query := q, All := true }

/-- `SelectQM.Intersect(q)`. -/
def SelectQM.Intersect (q : Option Expression) : mods.Combine :=
  { Strategy := expr.Intersect, Query := q, All := false }

/-- `SelectQM.IntersectAll(q)`. -/
def SelectQM.IntersectAll (q : Option Expression) : mods.Combine :=
  { Strategy := expr.Intersect, Query := q, All := true }

/-- `SelectQM.Except(q)`. -/
def SelectQM.Except (q : Option Expression) : mods.Combine :=
  { Strategy := expr.Except, Query := q, All := false }

/-- `SelectQM.ExceptAll(q)`. -/
def SelectQM.ExceptAll (q : Option Expression) : mods.Combine :=
  { Strategy := expr.Except, Query := q, All := true }

/-- The relationship has one side. -/
def oneSided (r : Relationship) : Bool :=
  decide (r.Sides.length = 1)

/-- The relationships that the foreign keys of the catalog give the list of
the name `k`, in foreign-key discovery order: the tables in catalog order, the
foreign keys of a table in their order, and for a foreign key whose target
table is in the catalog the relationship of the key, under the name of its
table, then its mirror, under the name of the target, when the table is not
flagged and is not the target. -/
def derivedInOrder (tables : List Table) (k : String) : List Relationship :=
  keyed k (tables.flatMap (fun t => t.FKeys.flatMap (fkEmits (tableNameMap tables) t)))

/-- What the turns of the loop for flagged tables keep, `F` holding of the
names of the flagged tables still to come: every list is made of one-sided relationships followed
by two-sided ones; a list under the name of a flagged table that holds a
two-sided relationship holds two relationships at least; and the list under
the target of the first side of a relationship is not empty when the target is
the name of a flagged table. -/
def OrderInv (F : String → Prop) (m : RelMap) : Prop :=
  (∀ k, OnesThenTwos (RelMap.get m k)) ∧
  (∀ k, F k → (∃ r ∈ RelMap.get m k, r.Sides.length = 2) → 2 ≤ (RelMap.get m k).length) ∧
  (∀ k, ∀ r ∈ RelMap.get m k, ∀ s l, r.Sides = s :: l → F s.To → RelMap.get m s.To ≠ [])

/-- A join table that references the join table `user_roles`:
`role_grants(user_id, role_id, grantor_id)` with the primary key of its three
columns, a foreign key `(user_id, role_id)` to `user_roles` and a foreign key
`grantor_id` to `users.id`. -/
def roleGrantsTable : Table :=
  { Name := "role_grants", Columns := [⟨"user_id"⟩, ⟨"role_id"⟩, ⟨"grantor_id"⟩],
    PKey := some ⟨"role_grants_pkey", ["user_id", "role_id", "grantor_id"]⟩, Uniques := [],
    FKeys := [⟨"role_grants_user_role_fkey", ["user_id", "role_id"], "user_roles",
                ["user_id", "role_id"]⟩,
              ⟨"role_grants_grantor_id_fkey", ["grantor_id"], "users", ["id"]⟩],
    IsJoinTable := true }

/-! ## Lemmas on the column-list helpers -/

theorem notIn_eq_true {α : Type} [DecidableEq α] (v : α) (b : List α) :
    notIn v b = true ↔ v ∉ b := by
  induction b with
  | nil => simp [notIn]
  | cons x b ih =>
    by_cases h : v = x
    · simp [notIn, h]
    · simp [notIn, h, ih]

theorem distinctElems_eq_true {α : Type} [DecidableEq α] (a b : List α) :
    distinctElems a b = true ↔ ∀ c, ¬ (c ∈ a ∧ c ∈ b) := by
  induction a with
  | nil => simp [distinctElems]
  | cons x a ih =>
    by_cases h : notIn x b = true
    · have hx := (notIn_eq_true x b).1 h
      simp only [distinctElems, h, if_true, ih]
      constructor
      · intro H c hc
        rcases List.mem_cons.1 hc.1 with rfl | hca
        · exact hx hc.2
        · exact H c ⟨hca, hc.2⟩
      · intro H c hc
        exact H c ⟨List.mem_cons_of_mem _ hc.1, hc.2⟩
    · have hx : x ∈ b := by
        by_contra hn
        exact h ((notIn_eq_true x b).2 hn)
      simp only [distinctElems, h]
      constructor
      · intro H
        simp at H
      · intro H
        exact absurd ⟨List.mem_cons_self _ _, hx⟩ (H x)

theorem matchesIn_eq_count {α : Type} [DecidableEq α] (v : α) (b : List α) :
    matchesIn v b = b.count v := by
  induction b with
  | nil => simp [matchesIn]
  | cons x b ih =>
    by_cases h : v = x
    · subst h
      simp [matchesIn, ih, Nat.add_comm]
    · have h' : ¬ x = v := fun e => h e.symm
      simp [matchesIn, ih, h, List.count_cons, h']

theorem matchesIn_nodup {α : Type} [DecidableEq α] (v : α) (b : List α) (hb : b.Nodup) :
    matchesIn v b = if v ∈ b then 1 else 0 := by
  rw [matchesIn_eq_count]
  by_cases h : v ∈ b
  · simp [h, List.count_eq_one_of_mem hb h]
  · simp [h, List.count_eq_zero_of_not_mem h]

theorem matchCount_le {α : Type} [DecidableEq α] (a b : List α) (hb : b.Nodup) :
    matchCount a b ≤ a.length := by
  induction a with
  | nil => simp [matchCount]
  | cons x a ih =>
    simp only [matchCount, List.length_cons, matchesIn_nodup x b hb]
    split <;> omega

theorem matchCount_eq_length {α : Type} [DecidableEq α] (a b : List α) (hb : b.Nodup) :
    matchCount a b = a.length ↔ ∀ x ∈ a, x ∈ b := by
  induction a with
  | nil => simp [matchCount]
  | cons x a ih =>
    have hle := matchCount_le a b hb
    simp only [matchCount, List.length_cons, matchesIn_nodup x b hb, List.mem_cons,
      forall_eq_or_imp]
    by_cases h : x ∈ b
    · simp only [h, if_true, true_and]
      rw [← ih]
      omega
    · simp only [h, if_false, false_and, iff_false]
      omega

/-- What `sliceMatch` computes, on all lists. -/
theorem sliceMatch_iff {α : Type} [DecidableEq α] (a b : List α) :
    sliceMatch a b = true ↔
      a.length = b.length ∧ a ≠ [] ∧ matchCount a b = a.length := by
  unfold sliceMatch
  by_cases hl : a.length = b.length
  · by_cases h0 : a.length = 0
    · have ha0 : a = [] := List.length_eq_zero.1 h0
      simp [ha0]
    · have hne : a ≠ [] := fun e => h0 (by simp [e])
      rw [if_neg (by simpa using hl), if_neg h0]
      simp [hl, hne]
  · rw [if_pos (by simpa using hl)]
    simp [hl]

/-- On repetition-free lists `sliceMatch` is equality of the two sets of
elements, the empty list apart. -/
theorem sliceMatch_nodup {α : Type} [DecidableEq α] (a b : List α)
    (ha : a.Nodup) (hb : b.Nodup) :
    sliceMatch a b = true ↔ a ≠ [] ∧ ∀ x, x ∈ a ↔ x ∈ b := by
  rw [sliceMatch_iff, matchCount_eq_length a b hb]
  constructor
  · rintro ⟨hl, hne, hsub⟩
    refine ⟨hne, fun x => ⟨hsub x, fun hx => ?_⟩⟩
    have hp : a.Perm b :=
      (List.subperm_of_subset ha hsub).perm_of_length_le (by omega)
    exact hp.mem_iff.2 hx
  · rintro ⟨hne, hset⟩
    have hp : a.Perm b := (List.perm_ext_iff_of_nodup ha hb).2 hset
    exact ⟨hp.length_eq, hne, fun x hx => (hset x).1 hx⟩

/-! ## Lemmas on Go maps -/

theorem GoMap.lookup_store {α β : Type} [DecidableEq α] (m : GoMap α β) (k x : α) (v : β) :
    GoMap.lookup (GoMap.store m k v) x = if k = x then some v else GoMap.lookup m x := by
  induction m with
  | nil => simp [GoMap.store, GoMap.lookup]
  | cons p m ih =>
    obtain ⟨a, b⟩ := p
    by_cases h : a = k
    · subst h
      by_cases hx : a = x
      · simp [GoMap.store, GoMap.lookup, hx]
      · simp [GoMap.store, GoMap.lookup, hx]
    · by_cases hx : a = x
      · subst hx
        have hk : ¬ k = a := fun e => h e.symm
        simp [GoMap.store, GoMap.lookup, h, hk]
      · simp [GoMap.store, GoMap.lookup, h, hx, ih]

theorem RelMap.get_appendRel (m : RelMap) (k x : String) (r : Relationship) :
    RelMap.get (appendRel m k r) x =
      if k = x then RelMap.get m x ++ [r] else RelMap.get m x := by
  unfold appendRel RelMap.get
  rw [GoMap.lookup_store]
  by_cases h : k = x
  · subst h
    simp
  · simp [h]

/-! ## The loop over the columns of a foreign key -/

theorem storeAll_cons (m : GoMap String String) (p : String × String)
    (ps : List (String × String)) :
    storeAll m (p :: ps) = storeAll (GoMap.store m p.1 p.2) ps := rfl

theorem pairLoop_eq (fcols : List String) (cols : List String) :
    ∀ (i : Nat) (p1 p2 : GoMap String String),
      pairLoop fcols cols i (p1, p2) =
        if cols = [] ∨ i + cols.length ≤ fcols.length then
          some (storeAll p1 (cols.zip (fcols.drop i)), storeAll p2 ((fcols.drop i).zip cols))
        else none := by
  induction cols with
  | nil => intro i p1 p2; simp [pairLoop, storeAll]
  | cons c cols ih =>
    intro i p1 p2
    by_cases hi : i < fcols.length
    · have hd : fcols.drop i = fcols[i] :: fcols.drop (i + 1) := List.drop_eq_getElem_cons hi
      simp only [pairLoop, List.getElem?_eq_getElem hi, ih, hd, List.zip_cons_cons,
        storeAll_cons, List.length_cons]
      by_cases hc : cols = []
      · subst hc
        have : i + (0 + 1) ≤ fcols.length := by omega
        simp [this]
      · have e : (i + 1 + cols.length ≤ fcols.length) ↔
            (i + (cols.length + 1) ≤ fcols.length) := by
          omega
        simp [hc, e]
    · have hn : fcols[i]? = none := List.getElem?_eq_none (by omega)
      have : ¬ (i + (cols.length + 1) ≤ fcols.length) := by omega
      simp [pairLoop, hn, this]

theorem pairLoop_zero (fk : ForeignKey) :
    pairLoop fk.ForeignColumns fk.Columns 0 ([], []) =
      if fk.Columns.length ≤ fk.ForeignColumns.length then some (pair1Of fk, pair2Of fk)
      else none := by
  rw [pairLoop_eq]
  by_cases h : fk.Columns.length ≤ fk.ForeignColumns.length
  · simp [h, pair1Of, pair2Of]
  · have hne : fk.Columns ≠ [] := by
      intro e
      rw [e] at h
      simp at h
    simp [h, hne]

/-! ## What the loops append -/

theorem keyed_nil (k : String) : keyed k [] = [] := rfl

theorem keyed_append (k : String) (a b : List (String × Relationship)) :
    keyed k (a ++ b) = keyed k a ++ keyed k b := by
  simp [keyed, List.filter_append]

theorem keyed_cons (k : String) (e : String × Relationship)
    (evs : List (String × Relationship)) :
    keyed k (e :: evs) = (if e.1 = k then [e.2] else []) ++ keyed k evs := by
  by_cases h : e.1 = k
  · simp [keyed, List.filter_cons, h]
  · simp [keyed, List.filter_cons, h]

theorem keyed_flatMap {α : Type} (k : String) (l : List α)
    (f : α → List (String × Relationship)) :
    keyed k (l.flatMap f) = l.flatMap (fun a => keyed k (f a)) := by
  induction l with
  | nil => rfl
  | cons a l ih => simp [List.flatMap_cons, keyed_append, ih]

/-- One turn of the loop over the foreign keys succeeds exactly when the
foreign key is in range, and then appends `fkEmits`. -/
theorem fkStep_some (tnm : GoMap String Table) (t1 : Table) (st st1 : RelMap × UniqueMap)
    (fk : ForeignKey) (h : fkStep tnm t1 st fk = some st1) :
    fkInRange tnm fk ∧
      ∀ k, RelMap.get st1.1 k = RelMap.get st.1 k ++ keyed k (fkEmits tnm t1 fk) := by
  unfold fkStep at h
  unfold fkInRange fkEmits
  cases hl : GoMap.lookup tnm fk.ForeignTable with
  | none =>
    rw [hl] at h
    simp only [Option.some.injEq] at h
    subst h
    exact ⟨Or.inl rfl, fun k => by simp [keyed_nil]⟩
  | some t2 =>
    rw [hl] at h
    simp only [pairLoop_zero] at h
    by_cases hr : fk.Columns.length ≤ fk.ForeignColumns.length
    · refine ⟨Or.inr hr, fun k => ?_⟩
      simp only [hr, if_true] at h
      by_cases hm : (!t1.IsJoinTable && t1.Name != t2.Name) = true
      · simp only [hm, if_true, Option.some.injEq] at h
        subst h
        simp only [hm, if_true, keyed_cons, keyed_nil, RelMap.get_appendRel, ownRel, mirrorRel]
        by_cases h1 : t1.Name = k <;> by_cases h2 : t2.Name = k <;> simp [h1, h2]
      · simp only [hm, Bool.false_eq_true, if_false, Option.some.injEq] at h
        subst h
        simp only [hm, Bool.false_eq_true, if_false, keyed_cons, keyed_nil,
          RelMap.get_appendRel, ownRel]
        by_cases h1 : t1.Name = k <;> simp [h1]
    · simp [hr] at h

theorem fkStep_isSome (tnm : GoMap String Table) (t1 : Table) (st : RelMap × UniqueMap)
    (fk : ForeignKey) (h : fkInRange tnm fk) :
    ∃ st1, fkStep tnm t1 st fk = some st1 := by
  unfold fkStep
  cases hl : GoMap.lookup tnm fk.ForeignTable with
  | none => exact ⟨st, rfl⟩
  | some t2 =>
    have hr : fk.Columns.length ≤ fk.ForeignColumns.length := by
      rcases h with h | h
      · rw [hl] at h
        cases h
      · exact h
    simp only [pairLoop_zero, hr, if_true]
    split <;> exact ⟨_, rfl⟩

theorem fkLoop_some (tnm : GoMap String Table) (t1 : Table) (fks : List ForeignKey) :
    ∀ (st st1 : RelMap × UniqueMap), fkLoop tnm t1 fks st = some st1 →
      (∀ fk ∈ fks, fkInRange tnm fk) ∧
      ∀ k, RelMap.get st1.1 k =
        RelMap.get st.1 k ++ keyed k (fks.flatMap (fkEmits tnm t1)) := by
  induction fks with
  | nil =>
    intro st st1 h
    simp only [fkLoop, Option.some.injEq] at h
    subst h
    simp [keyed_nil]
  | cons fk fks ih =>
    intro st st1 h
    simp only [fkLoop] at h
    cases hs : fkStep tnm t1 st fk with
    | none => simp [hs] at h
    | some st2 =>
      rw [hs] at h
      obtain ⟨hr, hg⟩ := fkStep_some tnm t1 st st2 fk hs
      obtain ⟨hrs, hgs⟩ := ih st2 st1 h
      refine ⟨?_, fun k => ?_⟩
      · intro f hf
        rcases List.mem_cons.1 hf with rfl | hf
        · exact hr
        · exact hrs f hf
      · rw [hgs k, hg k, List.flatMap_cons, keyed_append, List.append_assoc]

theorem fkLoop_isSome (tnm : GoMap String Table) (t1 : Table) (fks : List ForeignKey) :
    ∀ (st : RelMap × UniqueMap), (∀ fk ∈ fks, fkInRange tnm fk) →
      ∃ st1, fkLoop tnm t1 fks st = some st1 := by
  induction fks with
  | nil => intro st _; exact ⟨st, rfl⟩
  | cons fk fks ih =>
    intro st h
    obtain ⟨st2, hs⟩ := fkStep_isSome tnm t1 st fk (h fk (List.mem_cons_self _ _))
    obtain ⟨st1, hl⟩ := ih st2 (fun f hf => h f (List.mem_cons_of_mem _ hf))
    exact ⟨st1, by simp [fkLoop, hs, hl]⟩

/-- The many-to-many part succeeds exactly when the list of the table holds
two relationships, each with a first side, and then appends `manyEmits`. -/
theorem manyToMany_some (t1 : Table) (m m1 : RelMap) (u : UniqueMap)
    (h : manyToMany t1 m u = some m1) :
    ∃ r1 r2 s1 s2 l1 l2, RelMap.get m t1.Name = [r1, r2] ∧ r1.Sides = s1 :: l1 ∧
      r2.Sides = s2 :: l2 ∧
      ∀ k, RelMap.get m1 k = RelMap.get m k ++ keyed k (manyEmits t1 u r1 r2 s1 s2) := by
  unfold manyToMany at h
  simp only at h
  split at h
  · cases h
  · split at h
    · rename_i r1 r2 hrels
      split at h
      · rename_i s1 l1 s2 l2 hs1 hs2
        simp only [Option.some.injEq] at h
        subst h
        refine ⟨r1, r2, s1, s2, l1, l2, hrels, hs1, hs2, fun k => ?_⟩
        simp only [manyEmits, keyed_cons, keyed_nil, RelMap.get_appendRel]
        by_cases h1 : s1.To = k <;> by_cases h2 : s2.To = k <;> simp [h1, h2]
      · cases h
    · cases h

theorem manyToMany_isSome (t1 : Table) (m : RelMap) (u : UniqueMap)
    (r1 r2 : Relationship) (s1 s2 : RelSide) (l1 l2 : List RelSide)
    (hrels : RelMap.get m t1.Name = [r1, r2]) (h1 : r1.Sides = s1 :: l1)
    (h2 : r2.Sides = s2 :: l2) :
    ∃ m1, manyToMany t1 m u = some m1 := by
  unfold manyToMany
  simp only [hrels, h1, h2]
  exact ⟨_, rfl⟩

theorem tableStep_some (tnm : GoMap String Table) (m m1 : RelMap) (t1 : Table)
    (h : tableStep tnm m t1 = some m1) :
    (∀ fk ∈ t1.FKeys, fkInRange tnm fk) ∧
    ∃ evs, (∀ k, RelMap.get m1 k =
        RelMap.get m k ++ keyed k (t1.FKeys.flatMap (fkEmits tnm t1) ++ evs)) ∧
      (t1.IsJoinTable = false → evs = []) ∧
      (t1.IsJoinTable = true → ∃ u r1 r2 s1 s2 l1 l2,
        RelMap.get m t1.Name ++ keyed t1.Name (t1.FKeys.flatMap (fkEmits tnm t1)) = [r1, r2] ∧
        r1.Sides = s1 :: l1 ∧ r2.Sides = s2 :: l2 ∧ evs = manyEmits t1 u r1 r2 s1 s2) := by
  unfold tableStep at h
  cases hf : fkLoop tnm t1 t1.FKeys (m, []) with
  | none => simp [hf] at h
  | some st =>
    obtain ⟨m2, u⟩ := st
    rw [hf] at h
    obtain ⟨hr, hg⟩ := fkLoop_some tnm t1 t1.FKeys (m, []) (m2, u) hf
    refine ⟨hr, ?_⟩
    cases hj : t1.IsJoinTable with
    | false =>
      simp only [hj, Bool.not_false, if_true, Option.some.injEq] at h
      subst h
      refine ⟨[], ?_, ?_, ?_⟩
      · intro k
        simpa using hg k
      · intro _
        rfl
      · intro e
        cases e
    | true =>
      simp only [hj, Bool.not_true, Bool.false_eq_true, if_false] at h
      obtain ⟨r1, r2, s1, s2, l1, l2, hrels, h1, h2, hk⟩ := manyToMany_some t1 m2 m1 u h
      refine ⟨manyEmits t1 u r1 r2 s1 s2, ?_, ?_, ?_⟩
      · intro k
        rw [hk k, hg k, keyed_append, List.append_assoc]
      · intro e
        cases e
      · intro _
        refine ⟨u, r1, r2, s1, s2, l1, l2, ?_, h1, h2, rfl⟩
        rw [← hrels]
        exact (hg t1.Name).symm

/-- Every list only grows along one turn of the loop over the tables. -/
theorem tableStep_prefix (tnm : GoMap String Table) (m m1 : RelMap) (t1 : Table)
    (h : tableStep tnm m t1 = some m1) (k : String) :
    ∃ l, RelMap.get m1 k = RelMap.get m k ++ l := by
  obtain ⟨_, evs, hg, _⟩ := tableStep_some tnm m m1 t1 h
  exact ⟨_, hg k⟩

theorem tableLoop_prefix (tnm : GoMap String Table) (ts : List Table) :
    ∀ (m m1 : RelMap), tableLoop tnm ts m = some m1 →
      ∀ k, ∃ l, RelMap.get m1 k = RelMap.get m k ++ l := by
  induction ts with
  | nil =>
    intro m m1 h k
    simp only [tableLoop, Option.some.injEq] at h
    subst h
    exact ⟨[], by simp⟩
  | cons t ts ih =>
    intro m m1 h k
    simp only [tableLoop] at h
    cases hs : tableStep tnm m t with
    | none => simp [hs] at h
    | some m2 =>
      rw [hs] at h
      obtain ⟨l1, h1⟩ := tableStep_prefix tnm m m2 t hs k
      obtain ⟨l2, h2⟩ := ih m2 m1 h k
      exact ⟨l1 ++ l2, by rw [h2, h1, List.append_assoc]⟩

/-- The loop over the tables, cut at one of its tables. -/
theorem tableLoop_append (tnm : GoMap String Table) (ts1 ts2 : List Table) :
    ∀ (m : RelMap), tableLoop tnm (ts1 ++ ts2) m =
      match tableLoop tnm ts1 m with
      | none => none
      | some m1 => tableLoop tnm ts2 m1 := by
  induction ts1 with
  | nil => intro m; rfl
  | cons t ts1 ih =>
    intro m
    simp only [List.cons_append, tableLoop]
    cases tableStep tnm m t with
    | none => rfl
    | some m2 => exact ih m2

theorem lookup_foldl_store_ne (ts : List Table) (k : String) (hk : ∀ t ∈ ts, t.Name ≠ k) :
    ∀ m0 : GoMap String Table,
      GoMap.lookup (ts.foldl (fun m t => GoMap.store m t.Name t) m0) k = GoMap.lookup m0 k := by
  induction ts with
  | nil => intro m0; rfl
  | cons t ts ih =>
    intro m0
    simp only [List.foldl_cons]
    rw [ih (fun x hx => hk x (List.mem_cons_of_mem _ hx)), GoMap.lookup_store]
    simp [hk t (List.mem_cons_self _ _)]

theorem lookup_foldl_store_some (ts : List Table) (k : String) (t : Table) :
    ∀ m0 : GoMap String Table,
      GoMap.lookup (ts.foldl (fun m t => GoMap.store m t.Name t) m0) k = some t →
        (t ∈ ts ∧ t.Name = k) ∨ GoMap.lookup m0 k = some t := by
  induction ts with
  | nil => intro m0 h; exact Or.inr h
  | cons x ts ih =>
    intro m0 h
    simp only [List.foldl_cons] at h
    rcases ih _ h with ⟨hm, hn⟩ | h2
    · exact Or.inl ⟨List.mem_cons_of_mem _ hm, hn⟩
    · rw [GoMap.lookup_store] at h2
      by_cases hx : x.Name = k
      · simp only [hx, if_true, Option.some.injEq] at h2
        subst h2
        exact Or.inl ⟨List.mem_cons_self _ _, hx⟩
      · simp only [hx, if_false] at h2
        exact Or.inr h2

/-- A table found in `tableNameMap` under a name is a table of the catalog
with that name. -/
theorem lookup_tableNameMap_some (tables : List Table) (k : String) (t : Table)
    (h : GoMap.lookup (tableNameMap tables) k = some t) : t ∈ tables ∧ t.Name = k := by
  rcases lookup_foldl_store_some tables k t [] h with h1 | h1
  · exact h1
  · simp [GoMap.lookup] at h1

/-- With pairwise distinct table names, `tableNameMap` finds each table of the
catalog under its name. -/
theorem lookup_tableNameMap_of_mem (tables : List Table)
    (hn : (tables.map (fun t => t.Name)).Nodup) (t : Table) (ht : t ∈ tables) :
    GoMap.lookup (tableNameMap tables) t.Name = some t := by
  unfold tableNameMap
  generalize ([] : GoMap String Table) = m0
  induction tables generalizing m0 with
  | nil => cases ht
  | cons x ts ih =>
    simp only [List.map_cons, List.nodup_cons, List.mem_map, not_exists, not_and] at hn
    simp only [List.foldl_cons]
    rcases List.mem_cons.1 ht with rfl | hm
    · rw [lookup_foldl_store_ne ts t.Name (fun y hy => hn.1 y hy), GoMap.lookup_store]
      simp
    · exact ih hn.2 hm _

theorem lookup_tableNameMap_none (tables : List Table) (k : String)
    (h : GoMap.lookup (tableNameMap tables) k = none) : ∀ t ∈ tables, t.Name ≠ k := by
  unfold tableNameMap at h
  revert h
  generalize ([] : GoMap String Table) = m0
  induction tables generalizing m0 with
  | nil => intro _ t ht; cases ht
  | cons x ts ih =>
    intro h t ht
    simp only [List.foldl_cons] at h
    by_cases hts : ∀ y ∈ ts, y.Name ≠ k
    · rw [lookup_foldl_store_ne ts k hts, GoMap.lookup_store] at h
      rcases List.mem_cons.1 ht with rfl | hm
      · intro e
        simp [e] at h
      · exact hts t hm
    · rcases List.mem_cons.1 ht with rfl | hm
      · exact absurd (ih _ h) hts
      · exact ih _ h t hm

theorem mem_keyed (k : String) (r : Relationship) (evs : List (String × Relationship)) :
    r ∈ keyed k evs ↔ (k, r) ∈ evs := by
  unfold keyed
  simp only [List.mem_map, List.mem_filter, decide_eq_true_eq]
  constructor
  · rintro ⟨⟨a, b⟩, ⟨hm, rfl⟩, rfl⟩
    exact hm
  · intro h
    exact ⟨(k, r), ⟨h, rfl⟩, rfl⟩

theorem store_of_not_mem (m : GoMap String String) (k v : String)
    (h : k ∉ m.map Prod.fst) : GoMap.store m k v = m ++ [(k, v)] := by
  induction m with
  | nil => rfl
  | cons p m ih =>
    obtain ⟨a, b⟩ := p
    simp only [List.map_cons, List.mem_cons, not_or] at h
    have ha : ¬ a = k := fun e => h.1 e.symm
    simp [GoMap.store, ha, ih h.2]

theorem storeAll_of_nodup (ps : List (String × String)) :
    ∀ m : GoMap String String, ((m ++ ps).map Prod.fst).Nodup → storeAll m ps = m ++ ps := by
  induction ps with
  | nil => intro m _; simp [storeAll]
  | cons p ps ih =>
    intro m h
    obtain ⟨a, b⟩ := p
    have hnot : a ∉ m.map Prod.fst := by
      intro hm
      rw [List.map_append, List.nodup_append] at h
      exact h.2.2 hm (by simp)
    rw [storeAll_cons, store_of_not_mem m a b hnot, ih]
    · simp
    · simpa using h

theorem lookup_of_nodup (m : GoMap String String) (h : (m.map Prod.fst).Nodup)
    (k v : String) : GoMap.lookup m k = some v ↔ (k, v) ∈ m := by
  induction m with
  | nil => simp [GoMap.lookup]
  | cons p m ih =>
    obtain ⟨a, b⟩ := p
    simp only [List.map_cons, List.nodup_cons] at h
    by_cases ha : a = k
    · subst ha
      simp only [GoMap.lookup, if_true, Option.some.injEq, List.mem_cons, Prod.mk.injEq,
        true_and]
      constructor
      · intro e
        exact Or.inl e.symm
      · rintro (e | hm)
        · exact e.symm
        · exact absurd (List.mem_map_of_mem Prod.fst hm) h.1
    · have hk : ¬ k = a := fun e => ha e.symm
      simp [GoMap.lookup, ha, hk, ih h.2]

theorem map_fst_zip_sublist (a : List String) :
    ∀ b : List String, ((a.zip b).map Prod.fst).Sublist a := by
  induction a with
  | nil => intro b; simp
  | cons x a ih =>
    intro b
    cases b with
    | nil => simp
    | cons y b => simpa using ih b

theorem zip_keys_nodup (a b : List String) (ha : a.Nodup) :
    ((a.zip b).map Prod.fst).Nodup :=
  ha.sublist (map_fst_zip_sublist a b)

theorem storeAll_zip (a b : List String) (ha : a.Nodup) : storeAll [] (a.zip b) = a.zip b := by
  have h := storeAll_of_nodup (a.zip b) [] (by simpa using zip_keys_nodup a b ha)
  simpa using h

theorem pair1Of_eq (fk : ForeignKey) (h : fk.Columns.Nodup) :
    pair1Of fk = fk.Columns.zip fk.ForeignColumns :=
  storeAll_zip _ _ h

theorem pair2Of_eq (fk : ForeignKey) (h : fk.ForeignColumns.Nodup) :
    pair2Of fk = fk.ForeignColumns.zip fk.Columns :=
  storeAll_zip _ _ h

theorem lookup_zip (a b : List String) (ha : a.Nodup) (k v : String) :
    GoMap.lookup (a.zip b) k = some v ↔ (k, v) ∈ a.zip b :=
  lookup_of_nodup _ (zip_keys_nodup a b ha) k v

theorem mem_zip_swap (a b : List String) (k v : String) :
    (k, v) ∈ a.zip b ↔ (v, k) ∈ b.zip a := by
  rw [← List.zip_swap b a, List.mem_map]
  constructor
  · rintro ⟨⟨x, y⟩, hm, e⟩
    simp only [Prod.swap_prod_mk, Prod.mk.injEq] at e
    obtain ⟨rfl, rfl⟩ := e
    exact hm
  · intro h
    exact ⟨(v, k), h, rfl⟩

theorem invertMap_eq (frm : GoMap String String) :
    invertMap frm = storeAll [] (frm.map Prod.swap) := by
  unfold invertMap storeAll
  rw [List.foldl_map]
  rfl

theorem invertMap_zip (a b : List String) (hb : b.Nodup) :
    invertMap (a.zip b) = b.zip a := by
  rw [invertMap_eq, List.zip_swap, storeAll_zip b a hb]

theorem lookup_invertMap (g : GoMap String String) (hv : (g.map Prod.snd).Nodup)
    (k v : String) : GoMap.lookup (invertMap g) k = some v ↔ (v, k) ∈ g := by
  have hkeys : ((g.map Prod.swap).map Prod.fst).Nodup := by
    rw [List.map_map]
    exact hv
  have hs := storeAll_of_nodup (g.map Prod.swap) [] (by simpa using hkeys)
  rw [invertMap_eq, hs, List.nil_append, lookup_of_nodup _ hkeys, List.mem_map]
  constructor
  · rintro ⟨⟨a, b⟩, hm, e⟩
    simp only [Prod.swap_prod_mk, Prod.mk.injEq] at e
    obtain ⟨rfl, rfl⟩ := e
    exact hm
  · intro h
    exact ⟨(v, k), h, rfl⟩

/-- When no two keys carry the same value, `invertMap` yields the same map
whatever the order in which the entries are visited. -/
theorem invertMap_order (frm frm1 : GoMap String String) (hp : frm1.Perm frm)
    (hv : (frm.map Prod.snd).Nodup) (k v : String) :
    GoMap.lookup (invertMap frm1) k = some v ↔ GoMap.lookup (invertMap frm) k = some v := by
  have hv1 : (frm1.map Prod.snd).Nodup := ((hp.map Prod.snd).nodup_iff).2 hv
  rw [lookup_invertMap frm1 hv1, lookup_invertMap frm hv, hp.mem_iff]

theorem tableLoop_own (tnm : GoMap String Table) (ts : List Table) :
    ∀ (m0 m : RelMap), tableLoop tnm ts m0 = some m →
      ∀ t ∈ ts, ∀ fk ∈ t.FKeys, ∀ t2, GoMap.lookup tnm fk.ForeignTable = some t2 →
        ownRel t t2 fk ∈ RelMap.get m t.Name := by
  induction ts with
  | nil => intro m0 m _ t ht; cases ht
  | cons x ts ih =>
    intro m0 m h t ht fk hfk t2 hl
    simp only [tableLoop] at h
    cases hs : tableStep tnm m0 x with
    | none => simp [hs] at h
    | some m2 =>
      rw [hs] at h
      rcases List.mem_cons.1 ht with rfl | hm
      · obtain ⟨_, evs, hg, _⟩ := tableStep_some tnm m0 m2 t hs
        obtain ⟨l, hp⟩ := tableLoop_prefix tnm ts m2 m h t.Name
        rw [hp, hg t.Name, keyed_append]
        apply List.mem_append_left
        apply List.mem_append_right
        apply List.mem_append_left
        rw [mem_keyed, List.mem_flatMap]
        refine ⟨fk, hfk, ?_⟩
        simp [fkEmits, hl]
      · exact ih m2 m h t hm fk hfk t2 hl

/-! ## Catalogs without flagged tables -/

theorem tableLoop_unflagged (tnm : GoMap String Table) (ts : List Table) :
    ∀ (m0 m : RelMap), tableLoop tnm ts m0 = some m → (∀ t ∈ ts, t.IsJoinTable = false) →
      ∀ k, RelMap.get m k =
        RelMap.get m0 k ++ keyed k (ts.flatMap (fun t => t.FKeys.flatMap (fkEmits tnm t))) := by
  induction ts with
  | nil =>
    intro m0 m h _ k
    simp only [tableLoop, Option.some.injEq] at h
    subst h
    simp [keyed_nil]
  | cons x ts ih =>
    intro m0 m h hflag k
    simp only [tableLoop] at h
    cases hs : tableStep tnm m0 x with
    | none => simp [hs] at h
    | some m2 =>
      rw [hs] at h
      obtain ⟨_, evs, hg, he, _⟩ := tableStep_some tnm m0 m2 x hs
      have hevs := he (hflag x (List.mem_cons_self _ _))
      subst hevs
      rw [ih m2 m h (fun t ht => hflag t (List.mem_cons_of_mem _ ht)) k, hg k,
        List.flatMap_cons]
      simp [keyed_append, keyed_nil, List.append_assoc]

theorem BuildRelationships_unflagged (tables : List Table) (m : RelMap)
    (hb : BuildRelationships tables = some m) (hflag : ∀ t ∈ tables, t.IsJoinTable = false)
    (k : String) :
    RelMap.get m k =
      keyed k (tables.flatMap
        (fun t => t.FKeys.flatMap (fkEmits (tableNameMap tables) t))) := by
  have h := tableLoop_unflagged _ tables [] m hb hflag k
  simpa [RelMap.get, GoMap.lookup] using h

theorem eq_of_name_eq (tables : List Table) (hn : (tables.map (fun t => t.Name)).Nodup)
    (a b : Table) (ha : a ∈ tables) (hb : b ∈ tables) (h : a.Name = b.Name) : a = b :=
  List.inj_on_of_nodup_map hn ha hb h

theorem flatMap_ite_singleton {α β : Type} [DecidableEq α] (l : List α) (a : α) (x : List β)
    (hl : l.Nodup) (ha : a ∈ l) :
    l.flatMap (fun t => if t = a then x else []) = x := by
  induction l with
  | nil => cases ha
  | cons y l ih =>
    rw [List.nodup_cons] at hl
    rw [List.flatMap_cons]
    rcases List.mem_cons.1 ha with rfl | hm
    · have hz : l.flatMap (fun t => if t = a then x else []) = [] := by
        rw [List.flatMap_eq_nil_iff]
        intro t ht
        have : t ≠ a := fun e => hl.1 (e ▸ ht)
        simp [this]
      simp [hz]
    · have : y ≠ a := fun e => hl.1 (e ▸ hm)
      simp [this, ih hl.2 hm]

theorem flatMap_ite_filter {α β : Type} (l : List α) (p : α → Bool) (g : α → β) :
    l.flatMap (fun f => if p f = true then [g f] else []) = (l.filter p).map g := by
  induction l with
  | nil => rfl
  | cons y l ih =>
    rw [List.flatMap_cons, ih]
    by_cases h : p y = true
    · simp [h]
    · simp [h]

theorem filter_keyed_flatMap {α : Type} (p : Relationship → Bool) (k : String) (l : List α)
    (f : α → List (String × Relationship)) :
    (keyed k (l.flatMap f)).filter p = l.flatMap (fun a => (keyed k (f a)).filter p) := by
  rw [keyed_flatMap, List.filter_flatMap]

theorem mem_fkEmits (tnm : GoMap String Table) (t : Table) (f : ForeignKey) (k : String)
    (r : Relationship) (h : (k, r) ∈ fkEmits tnm t f) :
    ∃ t2, GoMap.lookup tnm f.ForeignTable = some t2 ∧
      ((k = t.Name ∧ r = ownRel t t2 f) ∨
        (t.IsJoinTable = false ∧ t.Name ≠ t2.Name ∧ k = t2.Name ∧
          r = mirrorRel t t2 f)) := by
  unfold fkEmits at h
  cases hl : GoMap.lookup tnm f.ForeignTable with
  | none => simp [hl] at h
  | some t2 =>
    refine ⟨t2, rfl, ?_⟩
    simp only [hl, List.mem_cons, Prod.mk.injEq] at h
    rcases h with ⟨h1, h2⟩ | h
    · exact Or.inl ⟨h1, h2⟩
    · by_cases hc : (!t.IsJoinTable && t.Name != t2.Name) = true
      · simp only [hc, if_true, List.mem_singleton, Prod.mk.injEq] at h
        simp only [Bool.and_eq_true, Bool.not_eq_true', bne_iff_ne, ne_eq] at hc
        exact Or.inr ⟨hc.1, hc.2, h.1, h.2⟩
      · simp [hc] at h

theorem goesFromTo_ownRel (a b : String) (t t2 : Table) (f : ForeignKey) :
    goesFromTo a b (ownRel t t2 f) = true ↔ t.Name = a ∧ t2.Name = b := by
  simp [goesFromTo, ownRel]

theorem goesFromTo_mirrorRel (a b : String) (t t2 : Table) (f : ForeignKey) :
    goesFromTo a b (mirrorRel t t2 f) = true ↔ t2.Name = a ∧ t.Name = b := by
  simp [goesFromTo, mirrorRel]

theorem filter_fkEmits_mirror (tables : List Table)
    (hn : (tables.map (fun t => t.Name)).Nodup) (t T1 T2 : Table) (ht : t ∈ tables)
    (h1 : T1 ∈ tables) (h2 : T2 ∈ tables) (hflag : t.IsJoinTable = false)
    (hne : T1.Name ≠ T2.Name) (f : ForeignKey)
    (hnone : t = T2 → f.ForeignTable ≠ T1.Name) :
    (keyed T2.Name (fkEmits (tableNameMap tables) t f)).filter (goesFromTo T2.Name T1.Name) =
      if t = T1 then (if targets T2.Name f = true then [mirrorRel T1 T2 f] else []) else [] := by
  by_cases hA : t = T1 ∧ f.ForeignTable = T2.Name
  · obtain ⟨rfl, hB⟩ := hA
    have hl : GoMap.lookup (tableNameMap tables) T2.Name = some T2 :=
      lookup_tableNameMap_of_mem tables hn T2 h2
    have hg : goesFromTo T2.Name t.Name (mirrorRel t T2 f) = true :=
      (goesFromTo_mirrorRel _ _ _ _ _).2 ⟨rfl, rfl⟩
    simp [fkEmits, hl, hflag, hne, keyed_cons, keyed_nil, targets, hB, hg]
  · have hrhs : (if t = T1 then (if targets T2.Name f = true then [mirrorRel T1 T2 f] else [])
        else []) = [] := by
      by_cases e : t = T1
      · have : ¬ f.ForeignTable = T2.Name := fun e2 => hA ⟨e, e2⟩
        simp [e, targets, this]
      · simp [e]
    rw [hrhs, List.filter_eq_nil_iff]
    intro r hr hP
    rw [mem_keyed] at hr
    obtain ⟨t2, hl, hcase⟩ := mem_fkEmits _ t f _ r hr
    obtain ⟨ht2, hname⟩ := lookup_tableNameMap_some tables _ t2 hl
    rcases hcase with ⟨hk, rfl⟩ | ⟨_, _, hk, rfl⟩
    · rw [goesFromTo_ownRel] at hP
      have e : t = T2 := eq_of_name_eq tables hn t T2 ht h2 hP.1
      exact hnone e (hname.symm.trans hP.2)
    · rw [goesFromTo_mirrorRel] at hP
      have e : t = T1 := eq_of_name_eq tables hn t T1 ht h1 hP.2
      exact hA ⟨e, hname.symm.trans hP.1⟩

theorem singleSideFromTo_ownRel (a b : String) (t t2 : Table) (f : ForeignKey) :
    singleSideFromTo a b (ownRel t t2 f) = true ↔ t.Name = a ∧ t2.Name = b := by
  simp [singleSideFromTo, ownRel]

theorem singleSideFromTo_mirrorRel (a b : String) (t t2 : Table) (f : ForeignKey) :
    singleSideFromTo a b (mirrorRel t t2 f) = true ↔ t2.Name = a ∧ t.Name = b := by
  simp [singleSideFromTo, mirrorRel]

theorem filter_fkEmits_self (tables : List Table)
    (hn : (tables.map (fun t => t.Name)).Nodup) (t T : Table) (ht : t ∈ tables)
    (hT : T ∈ tables) (f : ForeignKey) :
    (keyed T.Name (fkEmits (tableNameMap tables) t f)).filter
        (singleSideFromTo T.Name T.Name) =
      if t = T then (if targets T.Name f = true then [ownRel T T f] else []) else [] := by
  by_cases hA : t = T ∧ f.ForeignTable = T.Name
  · obtain ⟨rfl, hB⟩ := hA
    have hl : GoMap.lookup (tableNameMap tables) t.Name = some t :=
      lookup_tableNameMap_of_mem tables hn t hT
    have hg : singleSideFromTo t.Name t.Name (ownRel t t f) = true :=
      (singleSideFromTo_ownRel _ _ _ _ _).2 ⟨rfl, rfl⟩
    simp [fkEmits, hl, keyed_cons, keyed_nil, targets, hB, hg]
  · have hrhs : (if t = T then (if targets T.Name f = true then [ownRel T T f] else [])
        else []) = [] := by
      by_cases e : t = T
      · have : ¬ f.ForeignTable = T.Name := fun e2 => hA ⟨e, e2⟩
        simp [e, targets, this]
      · simp [e]
    rw [hrhs, List.filter_eq_nil_iff]
    intro r hr hP
    rw [mem_keyed] at hr
    obtain ⟨t2, hl, hcase⟩ := mem_fkEmits _ t f _ r hr
    obtain ⟨ht2, hname⟩ := lookup_tableNameMap_some tables _ t2 hl
    rcases hcase with ⟨hk, rfl⟩ | ⟨_, hne, hk, rfl⟩
    · rw [singleSideFromTo_ownRel] at hP
      have e : t = T := eq_of_name_eq tables hn t T ht hT hP.1
      exact hA ⟨e, hname.symm.trans hP.2⟩
    · rw [singleSideFromTo_mirrorRel] at hP
      exact hne (hP.2.trans hP.1.symm)

/-! ## A join table between two tables -/

/-- A table without foreign keys that is not flagged leaves the map as it is. -/
theorem tableStep_idle (tnm : GoMap String Table) (m : RelMap) (t : Table)
    (hf : t.FKeys = []) (hj : t.IsJoinTable = false) : tableStep tnm m t = some m := by
  simp [tableStep, hf, fkLoop, hj]

theorem tableLoop_single (tnm : GoMap String Table) (J : Table) (ts : List Table) :
    ∀ m0 : RelMap, (∀ t ∈ ts, t ≠ J → t.FKeys = [] ∧ t.IsJoinTable = false) →
      ts.count J = 1 → tableLoop tnm ts m0 = tableStep tnm m0 J := by
  induction ts with
  | nil => intro m0 _ hc; simp at hc
  | cons x ts ih =>
    intro m0 hidle hc
    by_cases hx : x = J
    · subst hx
      have hc0 : ts.count x = 0 := by simpa using hc
      have hnot : x ∉ ts := List.count_eq_zero.1 hc0
      simp only [tableLoop]
      cases hs : tableStep tnm m0 x with
      | none => rfl
      | some m1 =>
        have hrest : ∀ (l : List Table) (m : RelMap),
            (∀ t ∈ l, t.FKeys = [] ∧ t.IsJoinTable = false) →
              tableLoop tnm l m = some m := by
          intro l
          induction l with
          | nil => intro m _; rfl
          | cons y l ihl =>
            intro m hl
            have hy := hl y (List.mem_cons_self _ _)
            simp only [tableLoop, tableStep_idle tnm m y hy.1 hy.2]
            exact ihl m (fun t ht => hl t (List.mem_cons_of_mem _ ht))
        exact hrest ts m1 (fun t ht =>
          hidle t (List.mem_cons_of_mem _ ht) (fun e => hnot (e ▸ ht)))
    · have hxi := hidle x (List.mem_cons_self _ _) hx
      have hc1 : ts.count J = 1 := by
        rw [List.count_cons] at hc
        simpa [hx] using hc
      simp only [tableLoop, tableStep_idle tnm m0 x hxi.1 hxi.2]
      exact ih m0 (fun t ht => hidle t (List.mem_cons_of_mem _ ht)) hc1

theorem tableStep_join (tnm : GoMap String Table) (A B J : Table) (FK1 FK2 : ForeignKey)
    (hAB : A.Name ≠ B.Name) (hAJ : A.Name ≠ J.Name) (hBJ : B.Name ≠ J.Name)
    (hlA : GoMap.lookup tnm FK1.ForeignTable = some A)
    (hlB : GoMap.lookup tnm FK2.ForeignTable = some B)
    (hJ : J.IsJoinTable = true) (hfk : J.FKeys = [FK1, FK2])
    (hr1 : FK1.Columns.length ≤ FK1.ForeignColumns.length)
    (hr2 : FK2.Columns.length ≤ FK2.ForeignColumns.length) :
    tableStep tnm [] J = some (joinResult A B J FK1 FK2) := by
  have hJA : J.Name ≠ A.Name := fun e => hAJ e.symm
  have hJB : J.Name ≠ B.Name := fun e => hBJ e.symm
  have hBA : B.Name ≠ A.Name := fun e => hAB e.symm
  simp [tableStep, hfk, fkLoop, fkStep, hlA, hlB, pairLoop_zero, hr1, hr2, hJ, manyToMany,
      RelMap.get, appendRel, GoMap.store, GoMap.lookup, hJA, hJB, hBA, hAB, hAJ, hBJ,
      joinResult, joinUniqueMap, ownRel]

/-! ## The order of a list -/

theorem onesThenTwos_of_ones (l : List Relationship)
    (h : ∀ r ∈ l, ∃ s, r.Sides = [s]) : OnesThenTwos l := by
  refine ⟨l, [], by simp, ?_, by simp⟩
  intro r hr
  obtain ⟨s, hs⟩ := h r hr
  simp [hs]

theorem onesThenTwos_append_twos (l twos : List Relationship) (h : OnesThenTwos l)
    (h2 : ∀ r ∈ twos, r.Sides.length = 2) : OnesThenTwos (l ++ twos) := by
  obtain ⟨a, b, e, ha, hb⟩ := h
  refine ⟨a, b ++ twos, by rw [e, List.append_assoc], ha, ?_⟩
  intro r hr
  rcases List.mem_append.1 hr with hr | hr
  · exact hb r hr
  · exact h2 r hr

theorem sides_of_mem_fkEmits (tnm : GoMap String Table) (t : Table) (fk : ForeignKey)
    (k : String) (r : Relationship) (h : (k, r) ∈ fkEmits tnm t fk) : ∃ s, r.Sides = [s] := by
  obtain ⟨t2, _, hc⟩ := mem_fkEmits tnm t fk k r h
  rcases hc with ⟨_, rfl⟩ | ⟨_, _, _, rfl⟩
  · exact ⟨_, rfl⟩
  · exact ⟨_, rfl⟩

theorem filter_oneSided_fk (tnm : GoMap String Table) (t : Table) (k : String) :
    (keyed k (t.FKeys.flatMap (fkEmits tnm t))).filter oneSided =
      keyed k (t.FKeys.flatMap (fkEmits tnm t)) := by
  rw [List.filter_eq_self]
  intro r hr
  rw [mem_keyed, List.mem_flatMap] at hr
  obtain ⟨fk, _, hr⟩ := hr
  obtain ⟨s, hs⟩ := sides_of_mem_fkEmits _ _ _ _ _ hr
  simp [oneSided, hs]

theorem sides_of_mem_manyEmits (t : Table) (u : UniqueMap) (r1 r2 : Relationship)
    (s1 s2 : RelSide) (k : String) (r : Relationship)
    (h : r ∈ keyed k (manyEmits t u r1 r2 s1 s2)) :
    (k = s1.To ∨ k = s2.To) ∧ ∃ s s0, r.Sides = [s, s0] ∧ s.To = t.Name := by
  rw [mem_keyed] at h
  simp only [manyEmits, List.mem_cons, Prod.mk.injEq, List.mem_singleton, List.not_mem_nil,
    or_false] at h
  rcases h with ⟨hk, rfl⟩ | ⟨hk, rfl⟩
  · exact ⟨Or.inl hk, _, _, rfl, rfl⟩
  · exact ⟨Or.inr hk, _, _, rfl, rfl⟩

theorem filter_oneSided_many (t : Table) (u : UniqueMap) (r1 r2 : Relationship)
    (s1 s2 : RelSide) (k : String) :
    (keyed k (manyEmits t u r1 r2 s1 s2)).filter oneSided = [] := by
  rw [List.filter_eq_nil_iff]
  intro r hr
  obtain ⟨_, s, s0, hs, _⟩ := sides_of_mem_manyEmits _ _ _ _ _ _ _ _ hr
  simp [oneSided, hs]

/-- One turn of the loop over the tables appends, as one-sided relationships,
those of the foreign keys of the table, and two-sided relationships besides. -/
theorem tableStep_ones (tnm : GoMap String Table) (m0 m : RelMap) (t : Table)
    (h : tableStep tnm m0 t = some m) (k : String) :
    (RelMap.get m k).filter oneSided =
        (RelMap.get m0 k).filter oneSided ++ keyed k (t.FKeys.flatMap (fkEmits tnm t)) ∧
      ((∀ r ∈ RelMap.get m0 k, r.Sides.length = 1 ∨ r.Sides.length = 2) →
        ∀ r ∈ RelMap.get m k, r.Sides.length = 1 ∨ r.Sides.length = 2) := by
  obtain ⟨_, evs, hg, he, hev⟩ := tableStep_some tnm m0 m t h
  have hevs : (keyed k evs).filter oneSided = [] ∧
      ∀ r ∈ keyed k evs, r.Sides.length = 2 := by
    cases hj : t.IsJoinTable with
    | false =>
      rw [he hj]
      simp [keyed_nil]
    | true =>
      obtain ⟨u, r1, r2, s1, s2, l1, l2, _, _, _, rfl⟩ := hev hj
      refine ⟨filter_oneSided_many _ _ _ _ _ _ _, ?_⟩
      intro r hr
      obtain ⟨_, s, s0, hs, _⟩ := sides_of_mem_manyEmits _ _ _ _ _ _ _ _ hr
      simp [hs]
  constructor
  · rw [hg k, keyed_append, List.filter_append, List.filter_append, filter_oneSided_fk,
      hevs.1, List.append_nil]
  · intro h0 r hr
    rw [hg k, keyed_append] at hr
    rcases List.mem_append.1 hr with hr | hr
    · exact h0 r hr
    · rcases List.mem_append.1 hr with hr | hr
      · rw [mem_keyed, List.mem_flatMap] at hr
        obtain ⟨fk, _, hr⟩ := hr
        obtain ⟨s, hs⟩ := sides_of_mem_fkEmits _ _ _ _ _ hr
        exact Or.inl (by simp [hs])
      · exact Or.inr (hevs.2 r hr)

theorem tableLoop_ones (tnm : GoMap String Table) (ts : List Table) :
    ∀ (m0 m : RelMap), tableLoop tnm ts m0 = some m → ∀ k,
      (RelMap.get m k).filter oneSided =
          (RelMap.get m0 k).filter oneSided ++
            keyed k (ts.flatMap (fun t => t.FKeys.flatMap (fkEmits tnm t))) ∧
        ((∀ r ∈ RelMap.get m0 k, r.Sides.length = 1 ∨ r.Sides.length = 2) →
          ∀ r ∈ RelMap.get m k, r.Sides.length = 1 ∨ r.Sides.length = 2) := by
  induction ts with
  | nil =>
    intro m0 m h k
    simp only [tableLoop, Option.some.injEq] at h
    subst h
    simp [keyed_nil]
  | cons t ts ih =>
    intro m0 m h k
    simp only [tableLoop] at h
    cases hs : tableStep tnm m0 t with
    | none => simp [hs] at h
    | some m1 =>
      rw [hs] at h
      obtain ⟨h1, h2⟩ := tableStep_ones tnm m0 m1 t hs k
      obtain ⟨h3, h4⟩ := ih m1 m h k
      refine ⟨?_, fun h0 => h4 (h2 h0)⟩
      rw [h3, h1, List.flatMap_cons, keyed_append, List.append_assoc]

/-- After the turns of tables that are not flagged every relationship has one
side, and the list under the target of that side is not empty. -/
theorem tableLoop_unflagged_partner (tnm : GoMap String Table)
    (us : List Table) (m : RelMap) (h : tableLoop tnm us [] = some m)
    (hflag : ∀ t ∈ us, t.IsJoinTable = false) :
    ∀ k, ∀ r ∈ RelMap.get m k, ∃ s, r.Sides = [s] ∧ RelMap.get m s.To ≠ [] := by
  have hget := tableLoop_unflagged tnm us [] m h hflag
  have hmem : ∀ k r, r ∈ RelMap.get m k ↔
      ∃ t ∈ us, ∃ fk ∈ t.FKeys, (k, r) ∈ fkEmits tnm t fk := by
    intro k r
    rw [hget k]
    simp [RelMap.get, GoMap.lookup, mem_keyed, List.mem_flatMap]
  intro k r hr
  obtain ⟨t, ht, fk, hfk, he⟩ := (hmem k r).1 hr
  obtain ⟨t2, hl, hcase⟩ := mem_fkEmits tnm t fk k r he
  have hown : (t.Name, ownRel t t2 fk) ∈ fkEmits tnm t fk := by
    simp [fkEmits, hl]
  rcases hcase with ⟨_, rfl⟩ | ⟨hf, hne, hk, rfl⟩
  · refine ⟨_, rfl, ?_⟩
    show RelMap.get m t2.Name ≠ []
    by_cases hne : t.Name = t2.Name
    · rw [← hne]
      exact List.ne_nil_of_mem ((hmem _ _).2 ⟨t, ht, fk, hfk, hown⟩)
    · have hmir : (t2.Name, mirrorRel t t2 fk) ∈ fkEmits tnm t fk := by
        simp [fkEmits, hl, hflag t ht, hne]
      exact List.ne_nil_of_mem ((hmem _ _).2 ⟨t, ht, fk, hfk, hmir⟩)
  · refine ⟨_, rfl, ?_⟩
    show RelMap.get m t.Name ≠ []
    exact List.ne_nil_of_mem ((hmem _ _).2 ⟨t, ht, fk, hfk, hown⟩)

theorem onesThenTwos_ones_of_no_two (l : List Relationship) (h : OnesThenTwos l)
    (hno : ¬ ∃ r ∈ l, r.Sides.length = 2) : ∀ r ∈ l, r.Sides.length = 1 := by
  obtain ⟨ones, twos, e, h1, h2⟩ := h
  intro r hr
  rw [e] at hr
  rcases List.mem_append.1 hr with hr1 | hr2
  · exact h1 r hr1
  · exact absurd ⟨r, by rw [e]; exact List.mem_append_right _ hr2, h2 r hr2⟩ hno

/-- One turn of the loop for a flagged table keeps `OrderInv`, from the names
`F` of the flagged tables still to come, the table among them, to the names `G`
of those after it, when no foreign key of the table targets one of these. -/
theorem tableStep_orderInv (tnm : GoMap String Table) (F G : String → Prop)
    (hT : ∀ k t2, GoMap.lookup tnm k = some t2 → t2.Name = k)
    (t : Table) (m0 m : RelMap) (h : tableStep tnm m0 t = some m)
    (hflag : t.IsJoinTable = true) (hFt : F t.Name) (hGF : ∀ k, G k → F k)
    (hF : ∀ fk ∈ t.FKeys, ¬ G fk.ForeignTable)
    (h0 : OrderInv F m0) : OrderInv G m := by
  obtain ⟨hi, hiii, hv⟩ := h0
  obtain ⟨_, evs, hg, _, hev⟩ := tableStep_some tnm m0 m t h
  obtain ⟨u, r1, r2, s1, s2, l1, l2, hrels, hs1, hs2, rfl⟩ := hev hflag
  -- what the loop over the foreign keys appends under a key
  have hown : ∀ k, ∀ r ∈ keyed k (t.FKeys.flatMap (fkEmits tnm t)),
      k = t.Name ∧ ∃ s, r.Sides = [s] ∧ ¬ G s.To := by
    intro k r hr
    rw [mem_keyed, List.mem_flatMap] at hr
    obtain ⟨fk, hfk, hr⟩ := hr
    obtain ⟨t2, hl, hcase⟩ := mem_fkEmits tnm t fk k r hr
    have hname := hT _ _ hl
    rcases hcase with ⟨hk, rfl⟩ | ⟨hnf, _⟩
    · refine ⟨hk, _, rfl, ?_⟩
      show ¬ G t2.Name
      rw [hname]
      exact hF fk hfk
    · rw [hflag] at hnf
      cases hnf
  have htwos : ∀ k, ∀ r ∈ keyed k (manyEmits t u r1 r2 s1 s2), r.Sides.length = 2 := by
    intro k r hr
    obtain ⟨_, s, s0, hs, _⟩ := sides_of_mem_manyEmits _ _ _ _ _ _ _ _ hr
    simp [hs]
  have hlen : (RelMap.get m0 t.Name).length +
      (keyed t.Name (t.FKeys.flatMap (fkEmits tnm t))).length = 2 := by
    rw [← List.length_append, hrels]
    rfl
  -- the list of the table after its foreign keys
  have hA : OnesThenTwos (RelMap.get m0 t.Name ++
      keyed t.Name (t.FKeys.flatMap (fkEmits tnm t))) := by
    by_cases htwo : ∃ r ∈ RelMap.get m0 t.Name, r.Sides.length = 2
    · have h2 := hiii t.Name hFt htwo
      have hnil : keyed t.Name (t.FKeys.flatMap (fkEmits tnm t)) = [] :=
        List.eq_nil_of_length_eq_zero (by omega)
      rw [hnil, List.append_nil]
      exact hi t.Name
    · have hones := onesThenTwos_ones_of_no_two _ (hi t.Name) htwo
      refine ⟨_, [], (List.append_nil _).symm, ?_, by simp⟩
      intro r hr
      rcases List.mem_append.1 hr with hr | hr
      · exact hones r hr
      · obtain ⟨_, s, hs, _⟩ := hown _ r hr
        simp [hs]
  -- a flagged target of the first side of one of the two relationships read
  have hfirst : ∀ r ∈ [r1, r2], ∀ s l, r.Sides = s :: l → G s.To →
      RelMap.get m0 s.To ≠ [] := by
    intro r hr s l hs hFs
    rw [← hrels] at hr
    rcases List.mem_append.1 hr with hr | hr
    · exact hv t.Name r hr s l hs (hGF _ hFs)
    · obtain ⟨_, s3, hs3, hn⟩ := hown _ r hr
      rw [hs3] at hs
      simp only [List.cons.injEq] at hs
      rw [hs.1] at hn
      exact absurd hFs hn
  have hgrow : ∀ k, RelMap.get m0 k ≠ [] → RelMap.get m k ≠ [] := by
    intro k hk
    rw [hg k]
    intro e
    exact hk (List.append_eq_nil.1 e).1
  refine ⟨?_, ?_, ?_⟩
  · intro k
    rw [hg k, keyed_append, ← List.append_assoc]
    apply onesThenTwos_append_twos _ _ _ (htwos k)
    by_cases hk : k = t.Name
    · rw [hk]
      exact hA
    · have hnone : keyed k (t.FKeys.flatMap (fkEmits tnm t)) = [] := by
        rw [List.eq_nil_iff_forall_not_mem]
        intro r hr
        exact hk (hown k r hr).1
      rw [hnone, List.append_nil]
      exact hi k
  · intro k hFk ⟨r, hr, hr2⟩
    rw [hg k, keyed_append] at hr
    rw [hg k, keyed_append, List.length_append, List.length_append]
    rcases List.mem_append.1 hr with hr | hr
    · have := hiii k (hGF _ hFk) ⟨r, hr, hr2⟩
      omega
    · rcases List.mem_append.1 hr with hr | hr
      · obtain ⟨_, s, hs, _⟩ := hown k r hr
        rw [hs] at hr2
        simp at hr2
      · obtain ⟨hk, _⟩ := sides_of_mem_manyEmits _ _ _ _ _ _ _ _ hr
        have hne : RelMap.get m0 k ≠ [] := by
          rcases hk with hk | hk
          · rw [hk]
            exact hfirst r1 (by simp) s1 l1 hs1 (hk ▸ hFk)
          · rw [hk]
            exact hfirst r2 (by simp) s2 l2 hs2 (hk ▸ hFk)
        have h1 : 0 < (RelMap.get m0 k).length := List.length_pos.2 hne
        have h2 : 0 < (keyed k (manyEmits t u r1 r2 s1 s2)).length :=
          List.length_pos.2 (List.ne_nil_of_mem hr)
        omega
  · intro k r hr s l hs hFs
    rw [hg k, keyed_append] at hr
    rcases List.mem_append.1 hr with hr | hr
    · exact hgrow _ (hv k r hr s l hs (hGF _ hFs))
    · rcases List.mem_append.1 hr with hr | hr
      · obtain ⟨_, s3, hs3, hn⟩ := hown k r hr
        rw [hs3] at hs
        simp only [List.cons.injEq] at hs
        rw [hs.1] at hn
        exact absurd hFs hn
      · obtain ⟨_, s3, s0, hs3, hto⟩ := sides_of_mem_manyEmits _ _ _ _ _ _ _ _ hr
        rw [hs3] at hs
        simp only [List.cons.injEq] at hs
        rw [← hs.1, hto, hg t.Name, keyed_append, ← List.append_assoc, hrels]
        simp

/-- The turns of the loop for flagged tables none of which has a foreign key to
one listed after it keep `OrderInv`, from the names of these tables to no name. -/
theorem tableLoop_orderInv (tnm : GoMap String Table)
    (hT : ∀ k t2, GoMap.lookup tnm k = some t2 → t2.Name = k) (js : List Table) :
    ∀ (m0 m : RelMap), tableLoop tnm js m0 = some m →
      (∀ t ∈ js, t.IsJoinTable = true) →
      js.Pairwise (fun a b => ∀ fk ∈ a.FKeys, fk.ForeignTable ≠ b.Name) →
      OrderInv (fun k => ∃ j ∈ js, j.Name = k) m0 → OrderInv (fun _ => False) m := by
  induction js with
  | nil =>
    intro m0 m h _ _ h0
    simp only [tableLoop, Option.some.injEq] at h
    subst h
    obtain ⟨h1, h2, h3⟩ := h0
    refine ⟨h1, fun k hk => hk.elim, fun k r _ s l _ hk => hk.elim⟩
  | cons t js ih =>
    intro m0 m h hflag hF h0
    simp only [tableLoop] at h
    cases hs : tableStep tnm m0 t with
    | none => simp [hs] at h
    | some m1 =>
      rw [hs] at h
      rw [List.pairwise_cons] at hF
      exact ih m1 m h (fun x hx => hflag x (List.mem_cons_of_mem _ hx)) hF.2
        (tableStep_orderInv tnm _ _ hT t m0 m1 hs (hflag t (List.mem_cons_self _ _))
          ⟨t, List.mem_cons_self _ _, rfl⟩
          (fun k ⟨j, hj, e⟩ => ⟨j, List.mem_cons_of_mem _ hj, e⟩)
          (fun fk hfk ⟨j, hj, e⟩ => hF.1 j hj fk hfk e.symm) h0)

/-- A list of one-sided relationships followed by two-sided ones is its
one-sided relationships followed by two-sided ones. -/
theorem onesThenTwos_filter (l : List Relationship) (h : OnesThenTwos l) :
    ∃ twos, l = l.filter oneSided ++ twos ∧ ∀ r ∈ twos, r.Sides.length = 2 := by
  obtain ⟨ones, twos, e, h1, h2⟩ := h
  refine ⟨twos, ?_, h2⟩
  have f1 : ones.filter oneSided = ones := by
    rw [List.filter_eq_self]
    intro r hr
    simp [oneSided, h1 r hr]
  have f2 : twos.filter oneSided = [] := by
    rw [List.filter_eq_nil_iff]
    intro r hr
    simp [oneSided, h2 r hr]
  rw [e, List.filter_append, f1, f2, List.append_nil]

/-! ## Panics -/

theorem manyToMany_none_of_length (t : Table) (m : RelMap) (u : UniqueMap)
    (h : (RelMap.get m t.Name).length ≠ 2) : manyToMany t m u = none := by
  unfold manyToMany
  simp [h]

/-- Reaching a flagged table whose list does not hold two relationships makes
the whole call panic. -/
theorem tableLoop_none_of_reaches (tnm : GoMap String Table) (pre post : List Table)
    (t : Table) (m0 m : RelMap) (st : RelMap × UniqueMap)
    (hpre : tableLoop tnm pre m0 = some m) (hfk : fkLoop tnm t t.FKeys (m, []) = some st)
    (hflag : t.IsJoinTable = true) (hlen : (RelMap.get st.1 t.Name).length ≠ 2) :
    tableLoop tnm (pre ++ t :: post) m0 = none := by
  rw [tableLoop_append, hpre]
  obtain ⟨m1, u⟩ := st
  simp only [tableLoop, tableStep, hfk, hflag, Bool.not_true, Bool.false_eq_true, if_false,
    manyToMany_none_of_length t m1 u hlen]

theorem fkLoop_sidesNonempty (tnm : GoMap String Table) (t : Table) (m0 : RelMap)
    (st : RelMap × UniqueMap) (h : fkLoop tnm t t.FKeys (m0, []) = some st)
    (h0 : SidesNonempty m0) : SidesNonempty st.1 := by
  obtain ⟨_, hg⟩ := fkLoop_some tnm t t.FKeys (m0, []) st h
  intro k r hr
  rw [hg k] at hr
  rcases List.mem_append.1 hr with hr | hr
  · exact h0 k r hr
  · rw [mem_keyed, List.mem_flatMap] at hr
    obtain ⟨fk, _, hr⟩ := hr
    obtain ⟨t2, _, hcase⟩ := mem_fkEmits tnm t fk k r hr
    rcases hcase with ⟨_, rfl⟩ | ⟨_, _, _, rfl⟩
    · simp [ownRel]
    · simp [mirrorRel]

theorem tableStep_sidesNonempty (tnm : GoMap String Table) (t : Table) (m0 m : RelMap)
    (h : tableStep tnm m0 t = some m) (h0 : SidesNonempty m0) : SidesNonempty m := by
  obtain ⟨_, evs, hg, he, hev⟩ := tableStep_some tnm m0 m t h
  intro k r hr
  rw [hg k, keyed_append] at hr
  rcases List.mem_append.1 hr with hr | hr
  · exact h0 k r hr
  · rcases List.mem_append.1 hr with hr | hr
    · rw [mem_keyed, List.mem_flatMap] at hr
      obtain ⟨fk, _, hr⟩ := hr
      obtain ⟨t2, _, hcase⟩ := mem_fkEmits tnm t fk k r hr
      rcases hcase with ⟨_, rfl⟩ | ⟨_, _, _, rfl⟩
      · simp [ownRel]
      · simp [mirrorRel]
    · cases hj : t.IsJoinTable with
      | false =>
        rw [he hj] at hr
        cases hr
      | true =>
        obtain ⟨u, r1, r2, s1, s2, l1, l2, _, _, _, rfl⟩ := hev hj
        rw [mem_keyed] at hr
        simp only [manyEmits, List.mem_cons, Prod.mk.injEq, List.mem_singleton,
          List.not_mem_nil, or_false] at hr
        rcases hr with ⟨_, rfl⟩ | ⟨_, rfl⟩ <;> simp

/-- With every foreign key in range, a panic of the loop over the tables comes
from a flagged table whose list does not hold two relationships. -/
theorem tableLoop_none_reaches (tnm : GoMap String Table) (ts : List Table) :
    ∀ m0 : RelMap, (∀ t ∈ ts, ∀ fk ∈ t.FKeys, fkInRange tnm fk) → SidesNonempty m0 →
      tableLoop tnm ts m0 = none →
      ∃ pre t post m st, ts = pre ++ t :: post ∧ tableLoop tnm pre m0 = some m ∧
        fkLoop tnm t t.FKeys (m, []) = some st ∧ t.IsJoinTable = true ∧
        (RelMap.get st.1 t.Name).length ≠ 2 := by
  induction ts with
  | nil => intro m0 _ _ h; simp [tableLoop] at h
  | cons t ts ih =>
    intro m0 hr h0 h
    obtain ⟨st, hst⟩ := fkLoop_isSome tnm t t.FKeys (m0, [])
      (hr t (List.mem_cons_self _ _))
    have hrest := fun x hx => hr x (List.mem_cons_of_mem t hx)
    by_cases hbad : t.IsJoinTable = true ∧ (RelMap.get st.1 t.Name).length ≠ 2
    · exact ⟨[], t, ts, m0, st, rfl, rfl, hst, hbad.1, hbad.2⟩
    · cases hs : tableStep tnm m0 t with
      | none =>
        exfalso
        obtain ⟨m1, u⟩ := st
        unfold tableStep at hs
        rw [hst] at hs
        cases hj : t.IsJoinTable with
        | false => simp [hj] at hs
        | true =>
          simp only [hj, Bool.not_true, Bool.false_eq_true, if_false] at hs
          have hlen : (RelMap.get m1 t.Name).length = 2 := by
            by_contra hne
            exact hbad ⟨hj, hne⟩
          have hne1 : SidesNonempty m1 := fkLoop_sidesNonempty tnm t m0 (m1, u) hst h0
          obtain ⟨r1, r2, hrels⟩ := List.length_eq_two.1 hlen
          have h1 : r1.Sides ≠ [] := hne1 t.Name r1 (by rw [hrels]; simp)
          have h2 : r2.Sides ≠ [] := hne1 t.Name r2 (by rw [hrels]; simp)
          obtain ⟨s1, l1, e1⟩ := List.exists_cons_of_ne_nil h1
          obtain ⟨s2, l2, e2⟩ := List.exists_cons_of_ne_nil h2
          obtain ⟨m2, hm2⟩ := manyToMany_isSome t m1 u r1 r2 s1 s2 l1 l2 hrels e1 e2
          rw [hm2] at hs
          cases hs
      | some m1 =>
        simp only [tableLoop, hs] at h
        obtain ⟨pre, x, post, m, st1, e, hpre, hfk, hflag, hlen⟩ :=
          ih m1 hrest (tableStep_sidesNonempty tnm t m0 m1 hs h0) h
        refine ⟨t :: pre, x, post, m, st1, by rw [e]; rfl, ?_, hfk, hflag, hlen⟩
        simp only [tableLoop, hs]
        exact hpre

/-! ## Gated clauses -/

theorem query.ExpressIf_false (d : Dialect) (start : Int) (e : Expression)
    (before after : String) : query.ExpressIf d start e false before after = ("", .ok []) := by
  simp [query.ExpressIf]

theorem query.ExpressSlice_nil (d : Dialect) (start : Int) (before sep after : String) :
    query.ExpressSlice d start [] before sep after = ("", .ok []) := by
  simp [query.ExpressSlice]

/-- A clause whose presence predicate is false writes no text. -/
theorem query.ExpressIf_absent (d : Dialect) (start : Int) (e : Expression) (cond : Bool)
    (before after t : String) (r : Except String (List Arg)) (hc : cond = false)
    (h : query.ExpressIf d start e cond before after = (t, r)) : t = "" := by
  subst hc
  rw [query.ExpressIf_false] at h
  exact (Prod.mk.inj h).1.symm

theorem matchesIn_eq_pairs {α : Type} [DecidableEq α] (x : α) (b : List α) :
    matchesIn x b =
      ((b.map (fun y => (x, y))).filter (fun p => decide (p.1 = p.2))).length := by
  induction b with
  | nil => rfl
  | cons y b ihb =>
    by_cases h : x = y
    · subst h
      simp only [matchesIn, if_true, List.map_cons, List.filter_cons, decide_True,
        List.length_cons, ← ihb]
      omega
    · simp [matchesIn, h, List.filter_cons, ← ihb]

theorem product_cons_eq {α : Type} (x : α) (a b : List α) :
    (x :: a).product b = b.map (fun y => (x, y)) ++ a.product b := rfl

theorem matchCount_eq_equalPairs {α : Type} [DecidableEq α] (a b : List α) :
    matchCount a b = equalPairs a b := by
  unfold equalPairs
  induction a with
  | nil => rfl
  | cons x a ih =>
    rw [matchCount, product_cons_eq, List.filter_append, List.length_append, ← ih,
      ← matchesIn_eq_pairs]

theorem matchCount_cons_right {α : Type} [DecidableEq α] (x : α) (a b : List α) :
    matchCount b (x :: a) = matchesIn x b + matchCount b a := by
  induction b with
  | nil => simp [matchCount, matchesIn]
  | cons y b ih =>
    by_cases h : x = y
    · subst h
      simp only [matchCount, matchesIn, ih, if_true]
      omega
    · have h2 : ¬ y = x := fun e => h e.symm
      simp only [matchCount, matchesIn, ih, h, h2, if_false]
      omega

theorem matchCount_comm {α : Type} [DecidableEq α] (a b : List α) :
    matchCount a b = matchCount b a := by
  induction a with
  | nil =>
    induction b with
    | nil => rfl
    | cons y b ih => simpa [matchCount, matchesIn] using ih
  | cons x a ih => rw [matchCount_cons_right, matchCount, ih]

theorem sliceMatch_comm {α : Type} [DecidableEq α] (a b : List α) :
    sliceMatch a b = sliceMatch b a := by
  have key : ∀ a b : List α, sliceMatch a b = true → sliceMatch b a = true := by
    intro a b h
    rw [sliceMatch_iff] at h ⊢
    obtain ⟨hl, hne, hm⟩ := h
    refine ⟨hl.symm, ?_, ?_⟩
    · intro e
      rw [e] at hl
      exact hne (List.length_eq_zero.1 hl)
    · rw [matchCount_comm, hm, hl]
  cases h1 : sliceMatch a b with
  | true => exact (key a b h1).symm
  | false =>
    cases h2 : sliceMatch b a with
    | true => rw [key b a h2] at h1; cases h1
    | false => rfl

theorem distinctElems_comm {α : Type} [DecidableEq α] (a b : List α) :
    distinctElems a b = distinctElems b a := by
  rw [Bool.eq_iff_iff, distinctElems_eq_true, distinctElems_eq_true]
  constructor
  · intro h c hc
    exact h c ⟨hc.2, hc.1⟩
  · intro h c hc
    exact h c ⟨hc.2, hc.1⟩

/-- What a true answer of `IsJoinTable` tells about the table. -/
theorem IsJoinTable_true (t : Table) (h : IsJoinTable t = true) :
    ∃ pk fk0 fk1, t.PKey = some pk ∧ t.FKeys = [fk0, fk1] ∧
      t.Columns.length = pk.Columns.length ∧
      t.Columns.length = fk0.Columns.length + fk1.Columns.length ∧
      distinctElems fk0.Columns fk1.Columns = true := by
  unfold IsJoinTable at h
  split at h
  · cases h
  · rename_i pk hpk
    split at h
    · rename_i fk0 fk1 hfk
      refine ⟨pk, fk0, fk1, hpk, hfk, ?_⟩
      split at h
      · cases h
      · rename_i h1
        split at h
        · cases h
        · rename_i h2
          split at h
          · cases h
          · rename_i h3
            refine ⟨not_not.1 h1, not_not.1 h2, ?_⟩
            simpa using h3
    · cases h

theorem matchCount_eq_sum {α : Type} [DecidableEq α] (a b : List α) :
    matchCount a b = (a.map (fun v => b.count v)).sum := by
  induction a with
  | nil => rfl
  | cons x a ih => simp [matchCount, matchesIn_eq_count, ih]

theorem matchCount_perm {α : Type} [DecidableEq α] (a a1 b b1 : List α)
    (ha : a1.Perm a) (hb : b1.Perm b) : matchCount a1 b1 = matchCount a b := by
  rw [matchCount_eq_sum, matchCount_eq_sum]
  have h1 : (a1.map (fun v => b1.count v)) = (a1.map (fun v => b.count v)) := by
    apply List.map_congr_left
    intro v _
    exact hb.count_eq v
  rw [h1]
  exact (ha.map _).sum_eq

/-- `sliceMatch` does not depend on the order of either list. -/
theorem sliceMatch_perm {α : Type} [DecidableEq α] (a a1 b b1 : List α)
    (ha : a1.Perm a) (hb : b1.Perm b) : sliceMatch a1 b1 = sliceMatch a b := by
  unfold sliceMatch
  rw [ha.length_eq, hb.length_eq, matchCount_perm a a1 b b1 ha hb]

theorem any_perm {α : Type} (f : α → Bool) (l l1 : List α) (h : l1.Perm l) :
    l1.any f = l.any f := by
  rw [Bool.eq_iff_iff, List.any_eq_true, List.any_eq_true]
  constructor
  · rintro ⟨x, hx, hf⟩
    exact ⟨x, h.mem_iff.1 hx, hf⟩
  · rintro ⟨x, hx, hf⟩
    exact ⟨x, h.mem_iff.2 hx, hf⟩

theorem any_forall₂ {α : Type} (f g : α → Bool) (R : α → α → Prop)
    (hR : ∀ x y, R x y → g y = f x) (l l1 : List α) (h : List.Forall₂ R l l1) :
    l1.any g = l.any f := by
  induction h with
  | nil => rfl
  | cons hxy _ ih => simp [List.any_cons, hR _ _ hxy, ih]

theorem same_set_of_subset_length {α : Type} [DecidableEq α] (a b : List α) (ha : a.Nodup)
    (hs : ∀ c ∈ a, c ∈ b) (hl : b.length ≤ a.length) : ∀ c, c ∈ a ↔ c ∈ b := by
  intro c
  have hp : a.Perm b := (List.subperm_of_subset ha hs).perm_of_length_le hl
  exact hp.mem_iff

theorem finishWrite_runCalls_cons (start : Int) (c : ClauseCall) (cs : List ClauseCall)
    (w : String) (args : List Arg) :
    finishWrite (runCalls start (c :: cs) w args) =
      match c.run (addLen start args) with
      | (t, .error err) => (w ++ t, .error err)
      | (t, .ok newArgs) =>
        finishWrite (runCalls start cs (w ++ t) (if c.kept then args ++ newArgs else args)) := by
  rw [runCalls]
  split <;> simp_all [finishWrite]

theorem finishWrite_runCalls_nil (start : Int) (w : String) (args : List Arg) :
    finishWrite (runCalls start [] w args) = (w ++ "\n", .ok args) := rfl

/-- `WriteSQL` is the run of its thirteen calls followed by the newline. -/
theorem SelectQuery.WriteSQL_eq_run (x : expr.Writers) (s : SelectQuery) (d : Dialect)
    (start : Int) :
    s.WriteSQL x d start = finishWrite (runCalls start (s.calls x d) "" []) := by
  unfold SelectQuery.WriteSQL SelectQuery.calls
  simp only [finishWrite_runCalls_cons, finishWrite_runCalls_nil, if_true,
    Bool.false_eq_true, if_false]

theorem runCalls_append (start : Int) (pre post : List ClauseCall) :
    ∀ (w : String) (args : List Arg),
      runCalls start (pre ++ post) w args =
        match runCalls start pre w args with
        | (w1, .error err) => (w1, .error err)
        | (w1, .ok args1) => runCalls start post w1 args1 := by
  induction pre with
  | nil => intro w args; rfl
  | cons c pre ih =>
    intro w args
    simp only [List.cons_append, runCalls]
    rcases c.run (addLen start args) with ⟨t, e | a⟩
    · rfl
    · exact ih _ _

/-- A failed run stops at its first failing call: the calls before it
succeeded, and the text is theirs followed by what the failing call wrote. -/
theorem runCalls_error (start : Int) (cs : List ClauseCall) :
    ∀ (w : String) (args : List Arg) (w1 : String) (err : String),
      runCalls start cs w args = (w1, .error err) →
      ∃ pre c post w2 args2 t, cs = pre ++ c :: post ∧
        runCalls start pre w args = (w2, .ok args2) ∧
        c.run (addLen start args2) = (t, .error err) ∧ w1 = w2 ++ t := by
  induction cs with
  | nil => intro w args w1 err h; simp [runCalls] at h
  | cons c cs ih =>
    intro w args w1 err h
    rw [runCalls] at h
    rcases hc : c.run (addLen start args) with ⟨t, e | a⟩
    · rw [hc] at h
      simp only [Prod.mk.injEq, Except.error.injEq] at h
      obtain ⟨h1, h2⟩ := h
      subst h2
      exact ⟨[], c, cs, w, args, t, rfl, rfl, hc, h1.symm⟩
    · rw [hc] at h
      simp only at h
      obtain ⟨pre, c1, post, w2, args2, t1, e, hpre, hrun, hw⟩ := ih _ _ _ _ h
      refine ⟨c :: pre, c1, post, w2, args2, t1, by rw [e]; rfl, ?_, hrun, hw⟩
      rw [runCalls, hc]
      exact hpre

/-- A call of `WriteSQL` whose presence predicate is false writes nothing,
binds nothing and does not fail. -/
theorem SelectQuery.calls_absent (x : expr.Writers) (s : SelectQuery) (d : Dialect)
    (c : ClauseCall) (hc : c ∈ s.calls x d) (hp : c.present = false) (i : Int) :
    c.run i = ("", .ok []) := by
  simp only [SelectQuery.calls, List.mem_cons, List.mem_singleton, List.not_mem_nil,
    or_false] at hc
  rcases hc with rfl | rfl | rfl | rfl | rfl | rfl | rfl | rfl | rfl | rfl | rfl | rfl | rfl
  all_goals first
    | (simp only at hp; simp only [hp]; exact query.ExpressIf_false _ _ _ _ _)
    | (simp only at hp; cases hp)
    | (simp only [decide_eq_false_iff_not, not_not] at hp
       simp only [query.ExpressSlice, hp, if_true])

theorem finishWrite_error (r : Written) (w : String) (err : String)
    (h : finishWrite r = (w, .error err)) : r = (w, .error err) := by
  rcases r with ⟨w0, e | a⟩
  · simpa [finishWrite] using h
  · simp [finishWrite] at h

theorem SelectQuery.Apply_eq_foldl (ms : List (mods.QueryMod SelectQuery)) :
    ∀ s : SelectQuery, s.Apply ms = ms.foldl (fun q m => m.Apply q) s := by
  induction ms with
  | nil => intro s; rfl
  | cons m ms ih => intro s; exact ih (m.Apply s)

theorem selectLoop_eq_Apply (ms : List (mods.QueryMod SelectQuery)) :
    ∀ s : SelectQuery, selectLoop s ms = s.Apply ms := by
  induction ms with
  | nil => intro s; rfl
  | cons m ms ih => intro s; exact ih (m.Apply s)

/-- C1: `IsJoinTable(t)` is true exactly when `t` has a primary key, has
exactly two foreign keys, has as many columns as the primary key and as the
two foreign keys together, and no column name is in both foreign keys. -/
theorem IsJoinTable_iff (t : Table) :
    IsJoinTable t = true ↔
      ∃ pk fk0 fk1, t.PKey = some pk ∧ t.FKeys = [fk0, fk1] ∧
        t.Columns.length = pk.Columns.length ∧
        t.Columns.length = fk0.Columns.length + fk1.Columns.length ∧
        ∀ c, ¬ (c ∈ fk0.Columns ∧ c ∈ fk1.Columns) := by
  unfold IsJoinTable
  cases hpk : t.PKey with
  | none => simp
  | some pk =>
    cases hfk : t.FKeys with
    | nil => simp
    | cons fk0 l1 =>
      cases l1 with
      | nil => simp
      | cons fk1 l2 =>
        cases l2 with
        | nil =>
          have hR : (∃ pk1 f0 f1, some pk = some pk1 ∧ [fk0, fk1] = [f0, f1] ∧
              t.Columns.length = pk1.Columns.length ∧
              t.Columns.length = f0.Columns.length + f1.Columns.length ∧
              ∀ c, ¬ (c ∈ f0.Columns ∧ c ∈ f1.Columns)) ↔
              (t.Columns.length = pk.Columns.length ∧
                t.Columns.length = fk0.Columns.length + fk1.Columns.length ∧
                distinctElems fk0.Columns fk1.Columns = true) := by
            rw [distinctElems_eq_true]
            constructor
            · rintro ⟨pk1, f0, f1, e1, e2, h1, h2, h3⟩
              cases e1
              cases e2
              exact ⟨h1, h2, h3⟩
            · rintro ⟨h1, h2, h3⟩
              exact ⟨pk, fk0, fk1, rfl, rfl, h1, h2, h3⟩
          rw [hR]
          dsimp only
          by_cases h1 : t.Columns.length = pk.Columns.length
          · by_cases h2 : t.Columns.length = fk0.Columns.length + fk1.Columns.length
            · by_cases h3 : distinctElems fk0.Columns fk1.Columns = true
              · rw [if_neg (not_not.2 h1), if_neg (not_not.2 h2), h3]
                exact ⟨fun _ => ⟨h1, h2, rfl⟩, fun _ => rfl⟩
              · rw [if_neg (not_not.2 h1), if_neg (not_not.2 h2)]
                simp [h3]
            · rw [if_neg (not_not.2 h1), if_pos h2]
              simp [h2]
          · rw [if_pos h1]
            simp [h1]
        | cons fk2 l3 => simp

/-! ## Exact uniqueness -/

/-- C2, as stated, fails: on the columns `a`, `a` the code answers true for a
primary key on `a`, `b`, though the two sets differ; and on no column at all
it answers false for a primary key without columns, though the two sets are
equal. -/
theorem hasExactUnique_not_set_equality :
    (hasExactUnique pairKeyTable ["a", "a"] = true ∧
      ¬ ((∃ pk, pairKeyTable.PKey = some pk ∧ ∀ c, c ∈ ["a", "a"] ↔ c ∈ pk.Columns) ∨
          ∃ u ∈ pairKeyTable.Uniques, ∀ c, c ∈ ["a", "a"] ↔ c ∈ u.Columns)) ∧
    (hasExactUnique emptyKeyTable [] = false ∧
      ((∃ pk, emptyKeyTable.PKey = some pk ∧
            ∀ c, c ∈ ([] : List String) ↔ c ∈ pk.Columns) ∨
          ∃ u ∈ emptyKeyTable.Uniques,
            ∀ c, c ∈ ([] : List String) ↔ c ∈ u.Columns)) := by
  refine ⟨⟨by decide, ?_⟩, by decide,
    Or.inl ⟨⟨"t_pkey", []⟩, rfl, fun c => Iff.rfl⟩⟩
  rintro (⟨pk, hpk, h⟩ | ⟨u, hu, _⟩)
  · have e : pk = ⟨"t_pkey", ["a", "b"]⟩ := by
      simp only [pairKeyTable, Option.some.injEq] at hpk
      exact hpk.symm
    subst e
    have hb := (h "b").2 (by simp)
    simp at hb
  · simp [pairKeyTable] at hu

/-- C2, amended: when the column lists of the primary key and of the unique
constraints are repetition-free, and `cols` is non-empty and repetition-free,
`hasExactUnique(t, cols)` is true exactly when the set of `cols` is the set of
columns of the primary key or of one of the unique constraints. -/
theorem hasExactUnique_iff (t : Table) (cols : List String)
    (hpk : ∀ pk, t.PKey = some pk → pk.Columns.Nodup)
    (hun : ∀ u ∈ t.Uniques, u.Columns.Nodup)
    (hne : cols ≠ []) (hcols : cols.Nodup) :
    hasExactUnique t cols = true ↔
      ((∃ pk, t.PKey = some pk ∧ ∀ c, c ∈ cols ↔ c ∈ pk.Columns) ∨
        ∃ u ∈ t.Uniques, ∀ c, c ∈ cols ↔ c ∈ u.Columns) := by
  have key : ∀ a : List String, a.Nodup →
      (sliceMatch a cols = true ↔ ∀ c, c ∈ cols ↔ c ∈ a) := by
    intro a ha
    rw [sliceMatch_nodup a cols ha hcols]
    constructor
    · rintro ⟨_, h⟩ c
      exact (h c).symm
    · intro h
      refine ⟨?_, fun c => (h c).symm⟩
      rintro rfl
      cases cols with
      | nil => exact hne rfl
      | cons x l => exact absurd ((h x).1 (List.mem_cons_self _ _)) (List.not_mem_nil _)
  have hlen : ¬ cols.length = 0 := fun e => hne (List.length_eq_zero.1 e)
  unfold hasExactUnique
  rw [if_neg hlen]
  cases hp : t.PKey with
  | none =>
    have hany : (t.Uniques.any fun u => sliceMatch u.Columns cols) = true ↔
        ∃ u ∈ t.Uniques, ∀ c, c ∈ cols ↔ c ∈ u.Columns := by
      rw [List.any_eq_true]
      constructor
      · rintro ⟨u, hu, h⟩
        exact ⟨u, hu, (key _ (hun u hu)).1 h⟩
      · rintro ⟨u, hu, h⟩
        exact ⟨u, hu, (key _ (hun u hu)).2 h⟩
    simp only [Bool.false_eq_true, if_false, hany]
    constructor
    · intro h
      exact Or.inr h
    · rintro (⟨pk1, e, _⟩ | h)
      · cases e
      · exact h
  | some pk =>
    have hany : (t.Uniques.any fun u => sliceMatch u.Columns cols) = true ↔
        ∃ u ∈ t.Uniques, ∀ c, c ∈ cols ↔ c ∈ u.Columns := by
      rw [List.any_eq_true]
      constructor
      · rintro ⟨u, hu, h⟩
        exact ⟨u, hu, (key _ (hun u hu)).1 h⟩
      · rintro ⟨u, hu, h⟩
        exact ⟨u, hu, (key _ (hun u hu)).2 h⟩
    have hk := key pk.Columns (hpk pk hp)
    by_cases hm : sliceMatch pk.Columns cols = true
    · simp only [hm, if_true, true_iff]
      exact Or.inl ⟨pk, rfl, hk.1 hm⟩
    · simp only [hm, Bool.false_eq_true, if_false, hany]
      constructor
      · intro h
        exact Or.inr h
      · rintro (⟨pk1, e, h⟩ | h)
        · cases e
          exact absurd (hk.2 h) hm
        · exact h

/-- The amended C2 at `users(id pk)` and the column `id`. -/
theorem hasExactUnique_iff_witness :
    hasExactUnique usersTable ["id"] = true ↔
      ((∃ pk, usersTable.PKey = some pk ∧ ∀ c, c ∈ ["id"] ↔ c ∈ pk.Columns) ∨
        ∃ u ∈ usersTable.Uniques, ∀ c, c ∈ ["id"] ↔ c ∈ u.Columns) :=
  hasExactUnique_iff usersTable ["id"]
    (by intro pk h; simp only [usersTable, Option.some.injEq] at h; subst h; decide)
    (by intro u h; simp [usersTable] at h)
    (by decide) (by decide)

/-! ## Relationships of foreign keys -/

/-- C3: on a catalog with pairwise distinct table names on which
`BuildRelationships` returns a map, every foreign key `fk` of a table `T1`
with target table `T2` in the catalog and no repeated local column has, in the
list of `T1`, a relationship named after it with exactly one side, from `T1`
to `T2`, whose column map is the pairing of the local with the target columns
by position and whose to-unique flag is `hasExactUnique(T2, target columns)`.
The length of the target list and its repetitions play no part. -/
theorem BuildRelationships_own (tables : List Table) (m : RelMap)
    (hn : (tables.map (fun t => t.Name)).Nodup)
    (hb : BuildRelationships tables = some m)
    (T1 T2 : Table) (fk : ForeignKey) (h1 : T1 ∈ tables) (hfk : fk ∈ T1.FKeys)
    (h2 : T2 ∈ tables) (ht : fk.ForeignTable = T2.Name) (hc : fk.Columns.Nodup) :
    ∃ r ∈ RelMap.get m T1.Name, r.Name = fk.Name ∧
      ∃ s, r.Sides = [s] ∧ s.From = T1.Name ∧ s.To = T2.Name ∧
        (∀ k v, GoMap.lookup s.Pairs k = some v ↔
          (k, v) ∈ fk.Columns.zip fk.ForeignColumns) ∧
        s.ToUnique = hasExactUnique T2 fk.ForeignColumns := by
  have hl : GoMap.lookup (tableNameMap tables) fk.ForeignTable = some T2 := by
    rw [ht]
    exact lookup_tableNameMap_of_mem tables hn T2 h2
  refine ⟨ownRel T1 T2 fk, tableLoop_own _ tables [] m hb T1 h1 fk hfk T2 hl, rfl, _, rfl, rfl,
    rfl, ?_, rfl⟩
  intro k v
  show GoMap.lookup (pair1Of fk) k = some v ↔ _
  rw [pair1Of_eq fk hc]
  exact lookup_zip _ _ hc k v

/-- C3 at `users(id pk)`, `posts(id pk, user_id fk to users.id)`: the list of
`posts` holds a relationship to `users` with to-unique true. -/
theorem BuildRelationships_own_witness :
    ∃ m, BuildRelationships [usersTable, postsTable] = some m ∧
      ∃ r ∈ RelMap.get m "posts", r.Name = "posts_user_id_fkey" ∧
        ∃ s, r.Sides = [s] ∧ s.From = "posts" ∧ s.To = "users" ∧
          (∀ k v, GoMap.lookup s.Pairs k = some v ↔ (k, v) ∈ [("user_id", "id")]) ∧
          s.ToUnique = true :=
  ⟨_, rfl,
    BuildRelationships_own [usersTable, postsTable] _ (by decide) rfl postsTable usersTable
      ⟨"posts_user_id_fkey", ["user_id"], "users", ["id"]⟩ (by decide) (by decide) (by decide)
      rfl (by decide)⟩

/-- C4, as stated, fails: when a target column is repeated in the foreign key
(local columns `a`, `b`, target columns `x`, `x`), the mirrored relationship
maps `x` to `b` only, so it does not hold the pair of `a` with `x`. -/
theorem mirror_not_inverse :
    ∃ m, BuildRelationships [repeatedTargetChild, repeatedTargetParent] = some m ∧
      (("a", "x") ∈ ["a", "b"].zip ["x", "x"]) ∧
      ∀ r ∈ RelMap.get m "parent", ∀ s ∈ r.Sides,
        GoMap.lookup s.Pairs "x" ≠ some "a" := by
  refine ⟨_, rfl, by decide, ?_⟩
  decide

/-- C4, amended: on a catalog with pairwise distinct table names and no
flagged table, for which `BuildRelationships` returns a map, if `fk` is the
one foreign key of `T1` that targets `T2`, its target columns are not
repeated, and no foreign key of `T2` targets `T1`, then the list of `T2`
holds exactly one relationship with a side from `T2` to `T1`: it is named
after `fk`, has that single side, maps a target column to a local column
exactly when the two stand at the same position of `fk`, and its to-unique
flag is `hasExactUnique(T1, local columns)`. -/
theorem BuildRelationships_mirror (tables : List Table) (m : RelMap)
    (hn : (tables.map (fun t => t.Name)).Nodup)
    (hflag : ∀ t ∈ tables, t.IsJoinTable = false)
    (hb : BuildRelationships tables = some m)
    (T1 T2 : Table) (h1 : T1 ∈ tables) (h2 : T2 ∈ tables) (hne : T1 ≠ T2)
    (fk : ForeignKey) (hone : T1.FKeys.filter (targets T2.Name) = [fk])
    (hnone : ∀ f ∈ T2.FKeys, f.ForeignTable ≠ T1.Name)
    (hf : fk.ForeignColumns.Nodup) :
    ∃ r s, (RelMap.get m T2.Name).filter (goesFromTo T2.Name T1.Name) = [r] ∧
      r.Name = fk.Name ∧ r.Sides = [s] ∧ s.From = T2.Name ∧ s.To = T1.Name ∧
      (∀ k v, GoMap.lookup s.Pairs k = some v ↔ (v, k) ∈ fk.Columns.zip fk.ForeignColumns) ∧
      s.ToUnique = hasExactUnique T1 fk.Columns := by
  have hname : T1.Name ≠ T2.Name := fun e => hne (eq_of_name_eq tables hn T1 T2 h1 h2 e)
  have hnd : tables.Nodup := List.Nodup.of_map _ hn
  have hlist : (RelMap.get m T2.Name).filter (goesFromTo T2.Name T1.Name) =
      [mirrorRel T1 T2 fk] := by
    rw [BuildRelationships_unflagged tables m hb hflag, filter_keyed_flatMap]
    have hper : ∀ t ∈ tables,
        (keyed T2.Name (t.FKeys.flatMap (fkEmits (tableNameMap tables) t))).filter
            (goesFromTo T2.Name T1.Name) =
          if t = T1 then [mirrorRel T1 T2 fk] else [] := by
      intro t ht
      rw [filter_keyed_flatMap]
      have hfk : ∀ f ∈ t.FKeys,
          (keyed T2.Name (fkEmits (tableNameMap tables) t f)).filter
              (goesFromTo T2.Name T1.Name) =
            if t = T1 then (if targets T2.Name f = true then [mirrorRel T1 T2 f] else [])
            else [] := by
        intro f hfm
        exact filter_fkEmits_mirror tables hn t T1 T2 ht h1 h2 (hflag t ht) hname f
          (fun e => hnone f (e ▸ hfm))
      rw [List.flatMap_congr hfk]
      by_cases e : t = T1
      · subst e
        simp only [if_true]
        rw [flatMap_ite_filter, hone]
        rfl
      · simp [e]
    rw [List.flatMap_congr hper]
    exact flatMap_ite_singleton tables T1 _ hnd h1
  refine ⟨mirrorRel T1 T2 fk, _, hlist, rfl, rfl, rfl, rfl, ?_, rfl⟩
  intro k v
  show GoMap.lookup (pair2Of fk) k = some v ↔ _
  rw [pair2Of_eq fk hf, lookup_zip _ _ hf, mem_zip_swap]

/-- The amended C4 at `users(id pk)`, `posts(id pk, user_id fk to users.id)`:
the list of `users` holds exactly one relationship to `posts`. -/
theorem BuildRelationships_mirror_witness :
    ∃ m, BuildRelationships [usersTable, postsTable] = some m ∧
      ∃ r s, (RelMap.get m "users").filter (goesFromTo "users" "posts") = [r] ∧
        r.Name = "posts_user_id_fkey" ∧ r.Sides = [s] ∧ s.From = "users" ∧ s.To = "posts" ∧
        (∀ k v, GoMap.lookup s.Pairs k = some v ↔ (v, k) ∈ [("user_id", "id")]) ∧
        s.ToUnique = false :=
  ⟨_, rfl,
    BuildRelationships_mirror [usersTable, postsTable] _ (by decide) (by decide) rfl
      postsTable usersTable (by decide) (by decide) (by decide)
      ⟨"posts_user_id_fkey", ["user_id"], "users", ["id"]⟩ rfl (by decide) (by decide)⟩

/-- C5: on a catalog with pairwise distinct table names and no flagged table,
the list of a table `T` in the map that `BuildRelationships` returns holds as
many relationships with a single side from `T` to `T` as `T` has foreign keys
that target `T`. -/
theorem BuildRelationships_self (tables : List Table) (m : RelMap)
    (hn : (tables.map (fun t => t.Name)).Nodup)
    (hflag : ∀ t ∈ tables, t.IsJoinTable = false)
    (hb : BuildRelationships tables = some m) (T : Table) (hT : T ∈ tables) :
    (RelMap.get m T.Name).countP (singleSideFromTo T.Name T.Name) =
      T.FKeys.countP (targets T.Name) := by
  have hnd : tables.Nodup := List.Nodup.of_map _ hn
  have hlist : (RelMap.get m T.Name).filter (singleSideFromTo T.Name T.Name) =
      (T.FKeys.filter (targets T.Name)).map (ownRel T T) := by
    rw [BuildRelationships_unflagged tables m hb hflag, filter_keyed_flatMap]
    have hper : ∀ t ∈ tables,
        (keyed T.Name (t.FKeys.flatMap (fkEmits (tableNameMap tables) t))).filter
            (singleSideFromTo T.Name T.Name) =
          if t = T then (T.FKeys.filter (targets T.Name)).map (ownRel T T) else [] := by
      intro t ht
      rw [filter_keyed_flatMap]
      have hfk : ∀ f ∈ t.FKeys,
          (keyed T.Name (fkEmits (tableNameMap tables) t f)).filter
              (singleSideFromTo T.Name T.Name) =
            if t = T then (if targets T.Name f = true then [ownRel T T f] else [])
            else [] := by
        intro f _
        exact filter_fkEmits_self tables hn t T ht hT f
      rw [List.flatMap_congr hfk]
      by_cases e : t = T
      · subst e
        simp only [if_true]
        exact flatMap_ite_filter _ _ _
      · simp [e]
    rw [List.flatMap_congr hper]
    exact flatMap_ite_singleton tables T _ hnd hT
  rw [List.countP_eq_length_filter, hlist, List.length_map, List.countP_eq_length_filter]

/-- C5 at a table `nodes` with one foreign key to itself: one relationship
from `nodes` to `nodes`, and no second, mirrored one. -/
theorem BuildRelationships_self_witness :
    ∃ m, BuildRelationships [nodesTable] = some m ∧
      (RelMap.get m "nodes").countP (singleSideFromTo "nodes" "nodes") = 1 ∧
      (RelMap.get m "nodes").length = 1 :=
  ⟨_, rfl,
    BuildRelationships_self [nodesTable] _ (by decide) (by decide) rfl nodesTable (by decide),
    rfl⟩

/-! ## Many-to-many relationships -/

/-- C6: for two tables `A`, `B` without foreign keys and a flagged table `J`
with the foreign keys `FK1` to `A` and `FK2` to `B`, of pairwise distinct
table names and repetition-free column lists, each key with as many target
columns as local columns, as the data model has it (at least as many is
enough), in any catalog order, a map is returned and it holds for `J` the
two one-sided relationships of `FK1` and `FK2`, for `A` the one relationship
named `FK2.Name` with the sides `A` to `J` (inverse of the
pairing of `FK1`) and `J` to `B` (pairing of `FK2`), for `B` the one
relationship named `FK1.Name` with the sides `B` to `J` (inverse of the
pairing of `FK2`) and `J` to `A` (pairing of `FK1`); the first side on `A`
and the second side on `B` are inverse maps, and so are the first side on
`B` and the second side on `A`. -/
theorem BuildRelationships_manyToMany (tables : List Table) (A B J : Table)
    (FK1 FK2 : ForeignKey) (hperm : tables.Perm [A, B, J])
    (hAB : A.Name ≠ B.Name) (hAJ : A.Name ≠ J.Name) (hBJ : B.Name ≠ J.Name)
    (hA : A.FKeys = []) (hB : B.FKeys = [])
    (hAf : A.IsJoinTable = false) (hBf : B.IsJoinTable = false)
    (hJ : J.IsJoinTable = true) (hfk : J.FKeys = [FK1, FK2])
    (ht1 : FK1.ForeignTable = A.Name) (ht2 : FK2.ForeignTable = B.Name)
    (hc1 : FK1.Columns.Nodup) (hf1 : FK1.ForeignColumns.Nodup)
    (hc2 : FK2.Columns.Nodup) (hf2 : FK2.ForeignColumns.Nodup)
    (hr1 : FK1.Columns.length ≤ FK1.ForeignColumns.length)
    (hr2 : FK2.Columns.length ≤ FK2.ForeignColumns.length) :
    ∃ m j1 j2 a1 a2 b1 b2, BuildRelationships tables = some m ∧
      RelMap.get m J.Name = [⟨FK1.Name, [j1]⟩, ⟨FK2.Name, [j2]⟩] ∧
      j1.From = J.Name ∧ j1.To = A.Name ∧ j2.From = J.Name ∧ j2.To = B.Name ∧
      (∀ k v, GoMap.lookup j1.Pairs k = some v ↔
        (k, v) ∈ FK1.Columns.zip FK1.ForeignColumns) ∧
      (∀ k v, GoMap.lookup j2.Pairs k = some v ↔
        (k, v) ∈ FK2.Columns.zip FK2.ForeignColumns) ∧
      RelMap.get m A.Name = [⟨FK2.Name, [a1, a2]⟩] ∧
      a1.From = A.Name ∧ a1.To = J.Name ∧ a2.From = J.Name ∧ a2.To = B.Name ∧
      (∀ k v, GoMap.lookup a1.Pairs k = some v ↔
        (v, k) ∈ FK1.Columns.zip FK1.ForeignColumns) ∧
      (∀ k v, GoMap.lookup a2.Pairs k = some v ↔
        (k, v) ∈ FK2.Columns.zip FK2.ForeignColumns) ∧
      RelMap.get m B.Name = [⟨FK1.Name, [b1, b2]⟩] ∧
      b1.From = B.Name ∧ b1.To = J.Name ∧ b2.From = J.Name ∧ b2.To = A.Name ∧
      (∀ k v, GoMap.lookup b1.Pairs k = some v ↔
        (v, k) ∈ FK2.Columns.zip FK2.ForeignColumns) ∧
      (∀ k v, GoMap.lookup b2.Pairs k = some v ↔
        (k, v) ∈ FK1.Columns.zip FK1.ForeignColumns) ∧
      (∀ k v, GoMap.lookup a1.Pairs k = some v ↔ GoMap.lookup b2.Pairs v = some k) ∧
      (∀ k v, GoMap.lookup b1.Pairs k = some v ↔ GoMap.lookup a2.Pairs v = some k) := by
  have hJA : J.Name ≠ A.Name := fun e => hAJ e.symm
  have hJB : J.Name ≠ B.Name := fun e => hBJ e.symm
  have hBA : B.Name ≠ A.Name := fun e => hAB e.symm
  have hn : (tables.map (fun t => t.Name)).Nodup := by
    rw [(hperm.map _).nodup_iff]
    simp [hAB, hAJ, hBJ]
  have hmA : A ∈ tables := hperm.mem_iff.2 (by simp)
  have hmB : B ∈ tables := hperm.mem_iff.2 (by simp)
  have hlA : GoMap.lookup (tableNameMap tables) FK1.ForeignTable = some A := by
    rw [ht1]
    exact lookup_tableNameMap_of_mem tables hn A hmA
  have hlB : GoMap.lookup (tableNameMap tables) FK2.ForeignTable = some B := by
    rw [ht2]
    exact lookup_tableNameMap_of_mem tables hn B hmB
  have hneA : A ≠ J := fun e => hAJ (by rw [e])
  have hneB : B ≠ J := fun e => hBJ (by rw [e])
  have hcount : tables.count J = 1 := by
    rw [hperm.count_eq J]
    simp [List.count_cons, hneA, hneB]
  have hidle : ∀ t ∈ tables, t ≠ J → t.FKeys = [] ∧ t.IsJoinTable = false := by
    intro t ht hne
    have hm := hperm.mem_iff.1 ht
    simp only [List.mem_cons, List.mem_singleton, List.not_mem_nil, or_false] at hm
    rcases hm with rfl | rfl | rfl
    · exact ⟨hA, hAf⟩
    · exact ⟨hB, hBf⟩
    · exact absurd rfl hne
  have hrun : BuildRelationships tables = some (joinResult A B J FK1 FK2) := by
    unfold BuildRelationships
    rw [tableLoop_single _ J tables [] hidle hcount]
    exact tableStep_join _ A B J FK1 FK2 hAB hAJ hBJ hlA hlB hJ hfk hr1 hr2
  have e1 : pair1Of FK1 = FK1.Columns.zip FK1.ForeignColumns := pair1Of_eq FK1 hc1
  have e2 : pair1Of FK2 = FK2.Columns.zip FK2.ForeignColumns := pair1Of_eq FK2 hc2
  have i1 : invertMap (pair1Of FK1) = FK1.ForeignColumns.zip FK1.Columns := by
    rw [e1, invertMap_zip _ _ hf1]
  have i2 : invertMap (pair1Of FK2) = FK2.ForeignColumns.zip FK2.Columns := by
    rw [e2, invertMap_zip _ _ hf2]
  have p1 : ∀ k v, GoMap.lookup (pair1Of FK1) k = some v ↔
      (k, v) ∈ FK1.Columns.zip FK1.ForeignColumns := by
    intro k v
    rw [e1]
    exact lookup_zip _ _ hc1 k v
  have p2 : ∀ k v, GoMap.lookup (pair1Of FK2) k = some v ↔
      (k, v) ∈ FK2.Columns.zip FK2.ForeignColumns := by
    intro k v
    rw [e2]
    exact lookup_zip _ _ hc2 k v
  have q1 : ∀ k v, GoMap.lookup (invertMap (pair1Of FK1)) k = some v ↔
      (v, k) ∈ FK1.Columns.zip FK1.ForeignColumns := by
    intro k v
    rw [i1, lookup_zip _ _ hf1, mem_zip_swap]
  have q2 : ∀ k v, GoMap.lookup (invertMap (pair1Of FK2)) k = some v ↔
      (v, k) ∈ FK2.Columns.zip FK2.ForeignColumns := by
    intro k v
    rw [i2, lookup_zip _ _ hf2, mem_zip_swap]
  refine ⟨joinResult A B J FK1 FK2,
    ⟨J.Name, A.Name, pair1Of FK1, hasExactUnique A FK1.ForeignColumns⟩,
    ⟨J.Name, B.Name, pair1Of FK2, hasExactUnique B FK2.ForeignColumns⟩,
    ⟨A.Name, J.Name, invertMap (pair1Of FK1),
      (UniqueMap.get (joinUniqueMap A B J FK1 FK2) FK1.Name).1⟩,
    ⟨J.Name, B.Name, pair1Of FK2, (UniqueMap.get (joinUniqueMap A B J FK1 FK2) FK1.Name).2⟩,
    ⟨B.Name, J.Name, invertMap (pair1Of FK2),
      (UniqueMap.get (joinUniqueMap A B J FK1 FK2) FK2.Name).1⟩,
    ⟨J.Name, A.Name, pair1Of FK1, (UniqueMap.get (joinUniqueMap A B J FK1 FK2) FK2.Name).2⟩,
    hrun, ?_, rfl, rfl, rfl, rfl, p1, p2,
    ?_, rfl, rfl, rfl, rfl, q1, p2, ?_, rfl, rfl, rfl, rfl, q2, p1, ?_, ?_⟩
  · simp [joinResult, RelMap.get, GoMap.lookup, ownRel]
  · simp [joinResult, RelMap.get, GoMap.lookup, hJA]
  · simp [joinResult, RelMap.get, GoMap.lookup, hJB, hAB]
  · intro k v
    rw [q1, p1]
  · intro k v
    rw [q2, p2]

/-- C6 at `users`, `roles` and the join table `user_roles`, the
join table listed first. -/
theorem BuildRelationships_manyToMany_witness :
    ∃ m j1 j2 a1 a2 b1 b2,
      BuildRelationships [userRolesTable, usersTable, rolesTable] = some m ∧
      RelMap.get m "user_roles" =
        [⟨"user_roles_user_id_fkey", [j1]⟩, ⟨"user_roles_role_id_fkey", [j2]⟩] ∧
      j1.From = "user_roles" ∧ j1.To = "users" ∧ j2.From = "user_roles" ∧ j2.To = "roles" ∧
      (∀ k v, GoMap.lookup j1.Pairs k = some v ↔ (k, v) ∈ [("user_id", "id")]) ∧
      (∀ k v, GoMap.lookup j2.Pairs k = some v ↔ (k, v) ∈ [("role_id", "id")]) ∧
      RelMap.get m "users" = [⟨"user_roles_role_id_fkey", [a1, a2]⟩] ∧
      a1.From = "users" ∧ a1.To = "user_roles" ∧ a2.From = "user_roles" ∧ a2.To = "roles" ∧
      (∀ k v, GoMap.lookup a1.Pairs k = some v ↔ (v, k) ∈ [("user_id", "id")]) ∧
      (∀ k v, GoMap.lookup a2.Pairs k = some v ↔ (k, v) ∈ [("role_id", "id")]) ∧
      RelMap.get m "roles" = [⟨"user_roles_user_id_fkey", [b1, b2]⟩] ∧
      b1.From = "roles" ∧ b1.To = "user_roles" ∧ b2.From = "user_roles" ∧ b2.To = "users" ∧
      (∀ k v, GoMap.lookup b1.Pairs k = some v ↔ (v, k) ∈ [("role_id", "id")]) ∧
      (∀ k v, GoMap.lookup b2.Pairs k = some v ↔ (k, v) ∈ [("user_id", "id")]) ∧
      (∀ k v, GoMap.lookup a1.Pairs k = some v ↔ GoMap.lookup b2.Pairs v = some k) ∧
      (∀ k v, GoMap.lookup b1.Pairs k = some v ↔ GoMap.lookup a2.Pairs v = some k) :=
  BuildRelationships_manyToMany [userRolesTable, usersTable, rolesTable]
    usersTable rolesTable userRolesTable userRolesUserKey userRolesRoleKey
    (by decide) (by decide) (by decide) (by decide) rfl rfl rfl rfl rfl rfl rfl rfl
    (by decide) (by decide) (by decide) (by decide) (by decide) (by decide)

/-! ## The to-unique flag -/

/-- C7 fails on the code: for `users(id pk)`, `labels(code)` without any
uniqueness constraint and the join table `user_labels`, the many-to-many
relationship on `users` has a second side from `user_labels` to `labels` on
the target column `code` with to-unique true, though `labels` has no primary
key and no unique constraint; the one-sided relationship of `user_labels` to
`labels`, with the same tables and the same column map, has to-unique false. -/
theorem manyToMany_second_side_flag :
    BuildRelationships [usersTable, labelsTable, userLabelsTable] = some
      [("user_labels",
        [{ Name := "user_labels_user_id_fkey",
           Sides := [{ From := "user_labels", To := "users", Pairs := [("user_id", "id")],
                       ToUnique := true }] },
         { Name := "user_labels_label_code_fkey",
           Sides := [{ From := "user_labels", To := "labels",
                       Pairs := [("label_code", "code")], ToUnique := false }] }]),
       ("users",
        [{ Name := "user_labels_label_code_fkey",
           Sides := [{ From := "users", To := "user_labels", Pairs := [("id", "user_id")],
                       ToUnique := false },
                     { From := "user_labels", To := "labels",
                       Pairs := [("label_code", "code")], ToUnique := true }] }]),
       ("labels",
        [{ Name := "user_labels_user_id_fkey",
           Sides := [{ From := "labels", To := "user_labels",
                       Pairs := [("code", "label_code")], ToUnique := false },
                     { From := "user_labels", To := "users", Pairs := [("user_id", "id")],
                       ToUnique := false }] }])] ∧
      labelsTable.PKey = none ∧ labelsTable.Uniques = [] ∧
      hasExactUnique labelsTable ["code"] = false ∧
      hasExactUnique usersTable ["id"] = true ∧
      IsJoinTable userLabelsTable = true := by
  decide

/-! ## The order of the relationships of a table -/

/-- C8, as stated, fails, in two ways.  With the join table `user_roles` listed
before `posts`, the list of `users` holds the two-sided relationship to `roles`
first and the one-sided relationship to `posts` after it.  And with the join
tables listed last, the join table `role_grants` having a foreign key to the
join table `user_roles` listed after it, the list of `user_roles` holds a
two-sided relationship first and the one-sided relationship of its foreign key
to `users` after it. -/
theorem twoSided_before_oneSided :
    (BuildRelationships [userRolesTable, usersTable, rolesTable, postsTable]).map
        (fun m => (RelMap.get m "users").map (fun r => (r.Name, r.Sides.length))) =
      some [("user_roles_role_id_fkey", 2), ("posts_user_id_fkey", 1)] ∧
    (BuildRelationships [usersTable, roleGrantsTable, userRolesTable]).map
        (fun m => (RelMap.get m "user_roles").map (fun r => (r.Name, r.Sides.length))) =
      some [("role_grants_grantor_id_fkey", 2), ("user_roles_user_id_fkey", 1)] := by
  decide

/-- C8, amended: when `BuildRelationships` returns a map, the one-sided
relationships of every list are, in this order, the relationships derived from
the foreign keys in foreign-key discovery order, and every other relationship
of the list has two sides; and when the tables flagged as join tables come
after all the other tables of the catalog and no foreign key of a flagged table
targets a flagged table listed after it, the list is the relationships derived
from the foreign keys, in foreign-key discovery order, followed by two-sided
relationships. -/
theorem BuildRelationships_order (tables : List Table) (m : RelMap)
    (hb : BuildRelationships tables = some m) (k : String) :
    ((RelMap.get m k).filter oneSided = derivedInOrder tables k ∧
      ∀ r ∈ RelMap.get m k, r.Sides.length = 1 ∨ r.Sides.length = 2) ∧
    ∀ us js : List Table, tables = us ++ js →
      (∀ t ∈ us, t.IsJoinTable = false) → (∀ t ∈ js, t.IsJoinTable = true) →
      js.Pairwise (fun a b => ∀ fk ∈ a.FKeys, fk.ForeignTable ≠ b.Name) →
      ∃ twos, RelMap.get m k = derivedInOrder tables k ++ twos ∧
        ∀ r ∈ twos, r.Sides.length = 2 := by
  have hones := tableLoop_ones (tableNameMap tables) tables [] m hb k
  have hfil : (RelMap.get m k).filter oneSided = derivedInOrder tables k := by
    rw [hones.1]
    simp [RelMap.get, GoMap.lookup, derivedInOrder]
  refine ⟨⟨hfil, hones.2 (by simp [RelMap.get, GoMap.lookup])⟩, ?_⟩
  intro us js e hus hjs hF
  subst e
  unfold BuildRelationships at hb
  rw [tableLoop_append] at hb
  have hT : ∀ k t2, GoMap.lookup (tableNameMap (us ++ js)) k = some t2 → t2.Name = k :=
    fun k t2 h => (lookup_tableNameMap_some _ k t2 h).2
  cases h1 : tableLoop (tableNameMap (us ++ js)) us [] with
  | none => simp [h1] at hb
  | some m1 =>
    rw [h1] at hb
    simp only at hb
    have hp := tableLoop_unflagged_partner _ us m1 h1 hus
    have hinv1 : OrderInv (fun k => ∃ j ∈ js, j.Name = k) m1 := by
      refine ⟨?_, ?_, ?_⟩
      · intro k1
        exact onesThenTwos_of_ones _ (fun r hr => (hp k1 r hr).imp (fun s hs => hs.1))
      · rintro k1 _ ⟨r, hr, hr2⟩
        obtain ⟨s, hs, _⟩ := hp k1 r hr
        rw [hs] at hr2
        simp at hr2
      · intro k1 r hr s l hs _
        obtain ⟨s3, hs3, hne⟩ := hp k1 r hr
        rw [hs3] at hs
        simp only [List.cons.injEq] at hs
        rw [← hs.1]
        exact hne
    have hinv := tableLoop_orderInv _ hT js m1 m hb hjs hF hinv1
    obtain ⟨twos, e, h2⟩ := onesThenTwos_filter _ (hinv.1 k)
    rw [hfil] at e
    exact ⟨twos, e, h2⟩

/-- The amended C8 on `users`, `roles`, `posts` followed by the join tables
`user_roles` and `role_grants`, the second with a foreign key to the first: the
list of `user_roles` is the one-sided relationships of its two foreign keys,
which are the ones derived from the foreign keys, followed by the two-sided
relationship through `role_grants`. -/
theorem BuildRelationships_order_witness :
    ∃ m,
      BuildRelationships
          [usersTable, rolesTable, postsTable, userRolesTable, roleGrantsTable] = some m ∧
      (RelMap.get m "user_roles").map (fun r => (r.Name, r.Sides.length)) =
        [("user_roles_user_id_fkey", 1), ("user_roles_role_id_fkey", 1),
          ("role_grants_grantor_id_fkey", 2)] ∧
      (derivedInOrder [usersTable, rolesTable, postsTable, userRolesTable, roleGrantsTable]
          "user_roles").map (fun r => r.Name) =
        ["user_roles_user_id_fkey", "user_roles_role_id_fkey"] ∧
      ((RelMap.get m "user_roles").filter oneSided =
          derivedInOrder [usersTable, rolesTable, postsTable, userRolesTable, roleGrantsTable]
            "user_roles" ∧
        ∀ r ∈ RelMap.get m "user_roles", r.Sides.length = 1 ∨ r.Sides.length = 2) ∧
      ∃ twos, RelMap.get m "user_roles" =
          derivedInOrder [usersTable, rolesTable, postsTable, userRolesTable, roleGrantsTable]
            "user_roles" ++ twos ∧
        ∀ r ∈ twos, r.Sides.length = 2 :=
  ⟨_, rfl, by decide, by decide,
    (BuildRelationships_order
      [usersTable, rolesTable, postsTable, userRolesTable, roleGrantsTable] _ rfl
      "user_roles").1,
    (BuildRelationships_order
      [usersTable, rolesTable, postsTable, userRolesTable, roleGrantsTable] _ rfl
      "user_roles").2 [usersTable, rolesTable, postsTable] [userRolesTable, roleGrantsTable]
      rfl (by decide) (by decide) (by decide)⟩

/-! ## When the call panics -/

/-- C9, as stated, fails: a table that is not flagged, with a foreign key that
names fewer target columns than local columns, makes the call panic on the
read of the target column, and no flagged table is reached. -/
theorem abort_without_join_table :
    BuildRelationships [shortKeyTable] = none ∧ ¬ reachesBadJoinTable [shortKeyTable] := by
  refine ⟨by decide, ?_⟩
  rintro ⟨pre, t, post, m, st, e, _, _, hflag, _⟩
  have ht : t ∈ [shortKeyTable] := by
    rw [e]
    simp
  rw [List.mem_singleton] at ht
  subst ht
  revert hflag
  decide

/-- C9, amended: reaching a flagged table whose list does not hold exactly two
relationships right after its own foreign keys makes `BuildRelationships`
panic, on every catalog; and when every foreign key has at least as many
target columns as local columns, `BuildRelationships` panics exactly in that
case, so it returns a map when no flagged table is in that case. -/
theorem BuildRelationships_abort (tables : List Table) :
    (reachesBadJoinTable tables → BuildRelationships tables = none) ∧
    (enoughTargetColumns tables →
      ((BuildRelationships tables = none ↔ reachesBadJoinTable tables) ∧
        (¬ reachesBadJoinTable tables → ∃ m, BuildRelationships tables = some m))) := by
  have hdir : reachesBadJoinTable tables → BuildRelationships tables = none := by
    rintro ⟨pre, t, post, m, st, e, hpre, hfk, hflag, hlen⟩
    unfold BuildRelationships
    have := tableLoop_none_of_reaches (tableNameMap tables) pre post t [] m st hpre hfk hflag
      hlen
    rw [← e] at this
    exact this
  refine ⟨hdir, fun hlen => ?_⟩
  have hback : BuildRelationships tables = none → reachesBadJoinTable tables := by
    intro h
    exact tableLoop_none_reaches (tableNameMap tables) tables []
      (fun t ht fk hfk => Or.inr (hlen t ht fk hfk))
      (by intro k r hr; simp [RelMap.get, GoMap.lookup] at hr) h
  refine ⟨⟨hback, hdir⟩, fun hno => ?_⟩
  cases hb : BuildRelationships tables with
  | none => exact absurd (hback hb) hno
  | some m => exact ⟨m, rfl⟩

/-- The amended C9 at the join table `user_roles` alone in the catalog: its two
foreign keys find no target table, its list is empty, and the call panics. -/
theorem BuildRelationships_abort_witness :
    enoughTargetColumns [userRolesTable] ∧
      (BuildRelationships [userRolesTable] = none ↔ reachesBadJoinTable [userRolesTable]) ∧
      BuildRelationships [userRolesTable] = none :=
  ⟨by unfold enoughTargetColumns; decide,
    ((BuildRelationships_abort [userRolesTable]).2 (by unfold enoughTargetColumns; decide)).1,
    by decide⟩

/-! ## The text of a SELECT statement -/

/-- C10: when `WriteSQL` succeeds, the text written is the concatenation, in
this order, of the renderings of WITH, SELECT, FROM, WHERE, GROUP BY, HAVING,
WINDOW, the set combinator, ORDER BY, LIMIT, OFFSET, FETCH and the locking
clause, each started at the index the source passes, followed by one newline;
a clause whose presence predicate is false contributes no text; with no clause
after FROM present, the text is that of WITH, SELECT, FROM and the newline. -/
theorem SelectQuery.WriteSQL_text (x : expr.Writers) (s : SelectQuery) (d : Dialect)
    (start : Int) (w : String) (args : List Arg)
    (h : s.WriteSQL x d start = (w, .ok args)) :
    ∃ t1 a1 t2 a2 t3 a3 t4 a4 t5 a5 t6 a6 t7 a7 t8 a8 t9 a9 t10 a10 t11 a11 t12 a12
      t13 a13,
      query.ExpressIf d (addLen start []) (x.With s.With) (decide (s.With.CTEs.length > 0)) "\n" "" =
        (t1, .ok a1) ∧
      query.ExpressIf d (addLen start a1) (x.Select s.Select) true "\n" "" =
        (t2, .ok a2) ∧
      query.ExpressSlice d (addLen start (a1 ++ a2)) s.FromItems.Items "\nFROM " ",\n" "" =
        (t3, .ok a3) ∧
      query.ExpressIf d (addLen start (a1 ++ a2 ++ a3)) (x.Where s.Where) 
        (decide (s.Where.Conditions.length > 0)) "\n" "" =
        (t4, .ok a4) ∧
      query.ExpressIf d (addLen start (a1 ++ a2 ++ a3 ++ a4)) (x.GroupBy s.GroupBy)
        (decide (s.GroupBy.Groups.length > 0)) "\n" "" =
        (t5, .ok a5) ∧
      query.ExpressIf d (addLen start (a1 ++ a2 ++ a3 ++ a4 ++ a5)) (x.Having s.Having)
        (decide (s.Having.Conditions.length > 0)) "\n" "" =
        (t6, .ok a6) ∧
      query.ExpressIf d (addLen start (a1 ++ a2 ++ a3 ++ a4 ++ a5 ++ a6)) (x.Windows s.Windows)
        (decide (s.Windows.Windows.length > 0)) "\n" "" =
        (t7, .ok a7) ∧
      query.ExpressIf d (addLen start (a1 ++ a2 ++ a3 ++ a4 ++ a5 ++ a6 ++ a7))
        (x.Combine s.Combine)
        s.Combine.Query.isSome "\n" "" =
        (t8, .ok a8) ∧
      query.ExpressIf d (addLen start (a1 ++ a2 ++ a3 ++ a4 ++ a5 ++ a6 ++ a7 ++ a8))
        (x.OrderBy s.OrderBy)
        (decide (s.OrderBy.Expressions.length > 0)) "\n" "" =
        (t9, .ok a9) ∧
      query.ExpressIf d (addLen start (a1 ++ a2 ++ a3 ++ a4 ++ a5 ++ a6 ++ a7 ++ a8 ++ a9))
        (x.Limit s.Limit)
        s.Limit.Count.isSome "\n" "" =
        (t10, .ok a10) ∧
      query.ExpressIf d (addLen start (a1 ++ a2 ++ a3 ++ a4 ++ a5 ++ a6 ++ a7 ++ a8 ++ a9))
        (x.Offset s.Offset)
        s.Offset.Count.isSome "\n" "" =
        (t11, .ok a11) ∧
      query.ExpressIf d (addLen start (a1 ++ a2 ++ a3 ++ a4 ++ a5 ++ a6 ++ a7 ++ a8 ++ a9))
        (x.Fetch s.Fetch)
        s.Fetch.Count.isSome "\n" "" =
        (t12, .ok a12) ∧
      query.ExpressIf d (addLen start (a1 ++ a2 ++ a3 ++ a4 ++ a5 ++ a6 ++ a7 ++ a8 ++ a9))
        (x.For s.For)
        (decide (s.For.Strength ≠ "")) "\n" "" =
        (t13, .ok a13) ∧
      w = t1 ++ t2 ++ t3 ++ t4 ++ t5 ++ t6 ++ t7 ++ t8 ++ t9 ++ t10 ++ t11 ++ t12 ++ t13 ++
        "\n" ∧
      (s.With.CTEs = [] → t1 = "") ∧
      (s.FromItems.Items = [] → t3 = "") ∧
      (s.Where.Conditions = [] → t4 = "") ∧
      (s.GroupBy.Groups = [] → t5 = "") ∧
      (s.Having.Conditions = [] → t6 = "") ∧
      (s.Windows.Windows = [] → t7 = "") ∧
      (s.Combine.Query = none → t8 = "") ∧
      (s.OrderBy.Expressions = [] → t9 = "") ∧
      (s.Limit.Count = none → t10 = "") ∧
      (s.Offset.Count = none → t11 = "") ∧
      (s.Fetch.Count = none → t12 = "") ∧
      (s.For.Strength = "" → t13 = "") ∧
      (s.Where.Conditions = [] ∧ s.GroupBy.Groups = [] ∧ s.Having.Conditions = [] ∧
          s.Windows.Windows = [] ∧ s.Combine.Query = none ∧ s.OrderBy.Expressions = [] ∧
          s.Limit.Count = none ∧ s.Offset.Count = none ∧ s.Fetch.Count = none ∧
          s.For.Strength = "" →
        w = t1 ++ t2 ++ t3 ++ "\n") := by
  unfold SelectQuery.WriteSQL at h
  simp only [] at h
  split at h
  · simp at h
  rename_i t1 a1 h1
  split at h
  · simp at h
  rename_i t2 a2 h2
  split at h
  · simp at h
  rename_i t3 a3 h3
  split at h
  · simp at h
  rename_i t4 a4 h4
  split at h
  · simp at h
  rename_i t5 a5 h5
  split at h
  · simp at h
  rename_i t6 a6 h6
  split at h
  · simp at h
  rename_i t7 a7 h7
  split at h
  · simp at h
  rename_i t8 a8 h8
  split at h
  · simp at h
  rename_i t9 a9 h9
  split at h
  · simp at h
  rename_i t10 a10 h10
  split at h
  · simp at h
  rename_i t11 a11 h11
  split at h
  · simp at h
  rename_i t12 a12 h12
  split at h
  · simp at h
  rename_i t13 a13 h13
  simp only [List.nil_append, String.empty_append]
    at h1 h2 h3 h4 h5 h6 h7 h8 h9 h10 h11 h12 h13 h
  have hw := (Prod.mk.inj h).1
  have e0 : ∀ l : List Expression, l = [] → decide (l.length > 0) = false := by
    intro l hl
    subst hl
    rfl
  have e0w : s.Windows.Windows = [] → decide (s.Windows.Windows.length > 0) = false := by
    intro hl
    rw [hl]
    rfl
  have e1 : ∀ o : Option Expression, o = none → o.isSome = false := by
    intro o ho
    subst ho
    rfl
  have e2 : ∀ o : Option Int, o = none → o.isSome = false := by
    intro o ho
    subst ho
    rfl
  have g1 := fun hp => query.ExpressIf_absent _ _ _ _ _ _ _ _ (e0 _ hp) h1
  have g3 : s.FromItems.Items = [] → t3 = "" := by
    intro hp
    rw [hp, query.ExpressSlice_nil] at h3
    exact (Prod.mk.inj h3).1.symm
  have g4 := fun hp => query.ExpressIf_absent _ _ _ _ _ _ _ _ (e0 _ hp) h4
  have g5 := fun hp => query.ExpressIf_absent _ _ _ _ _ _ _ _ (e0 _ hp) h5
  have g6 := fun hp => query.ExpressIf_absent _ _ _ _ _ _ _ _ (e0 _ hp) h6
  have g7 := fun hp => query.ExpressIf_absent _ _ _ _ _ _ _ _ (e0w hp) h7
  have g8 := fun hp => query.ExpressIf_absent _ _ _ _ _ _ _ _ (e1 _ hp) h8
  have g9 := fun hp => query.ExpressIf_absent _ _ _ _ _ _ _ _ (e0 _ hp) h9
  have g10 := fun hp => query.ExpressIf_absent _ _ _ _ _ _ _ _ (e2 _ hp) h10
  have g11 := fun hp => query.ExpressIf_absent _ _ _ _ _ _ _ _ (e2 _ hp) h11
  have g12 := fun hp => query.ExpressIf_absent _ _ _ _ _ _ _ _ (e2 _ hp) h12
  have g13 : s.For.Strength = "" → t13 = "" := by
    intro hp
    exact query.ExpressIf_absent _ _ _ _ _ _ _ _ (by simp [hp]) h13
  refine ⟨t1, a1, t2, a2, t3, a3, t4, a4, t5, a5, t6, a6, t7, a7, t8, a8, t9, a9, t10, a10,
    t11, a11, t12, a12, t13, a13, h1, h2, h3, h4, h5, h6, h7, h8, h9, h10, h11, h12, h13,
    hw.symm, g1, g3, g4, g5, g6, g7, g8, g9, g10, g11, g12, g13, ?_⟩
  rintro ⟨p4, p5, p6, p7, p8, p9, p10, p11, p12, p13⟩
  rw [← hw, g4 p4, g5 p5, g6 p6, g7 p7, g8 p8, g9 p9, g10 p10, g11 p11, g12 p12, g13 p13]
  simp only [String.append_empty]

/-- C10 at `SELECT * FROM users`: the text is the rendering of WITH, which is
empty, of SELECT and of FROM, and the newline. -/
theorem SelectQuery.WriteSQL_text_witness :
    ∃ t1 t2 t3 : String, "\nSELECT *\nFROM users\n" = t1 ++ t2 ++ t3 ++ "\n" ∧ t1 = "" := by
  obtain ⟨t1, _, t2, _, t3, _, _, _, _, _, _, _, _, _, _, _, _, _, _, _, _, _, _, _, _, _,
      _, _, _, _, _, _, _, _, _, _, _, _, _, _, g1, _, _, _, _, _, _, _, _, _, _, _, hlast⟩ :=
    SelectQuery.WriteSQL_text sampleWriters selectUsers questionDialect 1 _ _ rfl
  exact ⟨t1, t2, t3, hlast ⟨rfl, rfl, rfl, rfl, rfl, rfl, rfl, rfl, rfl, rfl⟩, g1 rfl⟩

/-- The rendering of `SELECT * FROM users WHERE id = ? AND name = ?`. -/
theorem selectUsersWhere_rendering :
    selectUsersWhere.WriteSQL sampleWriters questionDialect 1 =
      ("\nSELECT *\nFROM users\nWHERE id = ? AND name = ?\n", .ok [.int 7, .str "bob"]) :=
  rfl

/-! ## What `sliceMatch` computes -/

/-- C20: `sliceMatch(a, b)` is true exactly when `a` and `b` are non-empty, of
equal length, and the number of pairs of positions holding equal values is the
length of `a`; on repetition-free lists it is true exactly when `a` is
non-empty and a permutation of `b`; and `sliceMatch(a, b) = sliceMatch(b, a)`
on all lists. -/
theorem sliceMatch_spec {α : Type} [DecidableEq α] (a b : List α) :
    (sliceMatch a b = true ↔
      a ≠ [] ∧ b ≠ [] ∧ a.length = b.length ∧ equalPairs a b = a.length) ∧
    (a.Nodup → b.Nodup → (sliceMatch a b = true ↔ a ≠ [] ∧ a.Perm b)) ∧
    sliceMatch a b = sliceMatch b a := by
  refine ⟨?_, ?_, sliceMatch_comm a b⟩
  · rw [sliceMatch_iff, matchCount_eq_equalPairs]
    constructor
    · rintro ⟨hl, hne, hm⟩
      refine ⟨hne, ?_, hl, hm⟩
      intro e
      rw [e] at hl
      exact hne (List.length_eq_zero.1 hl)
    · rintro ⟨hne, _, hl, hm⟩
      exact ⟨hl, hne, hm⟩
  · intro ha hb
    rw [sliceMatch_nodup a b ha hb, List.perm_ext_iff_of_nodup ha hb]

/-- C20 at the lists `a, b` and `b, a`: a match, two equal pairs, and the same
answer in the other order. -/
theorem sliceMatch_spec_witness :
    sliceMatch ["a", "b"] ["b", "a"] = true ∧ equalPairs ["a", "b"] ["b", "a"] = 2 ∧
      (["a", "b"] : List String).Perm ["b", "a"] ∧
      sliceMatch ["b", "a"] ["a", "b"] = true :=
  ⟨by decide, by decide,
    (((sliceMatch_spec ["a", "b"] ["b", "a"]).2.1 (by decide) (by decide)).1 (by decide)).2,
    (sliceMatch_spec ["a", "b"] ["b", "a"]).2.2 ▸ (by decide)⟩

/-! ## Symmetries of the classifiers -/

/-- C14: for a table with exactly two foreign keys, swapping the two foreign
keys does not change the answer of `IsJoinTable`. -/
theorem IsJoinTable_swap (t : Table) (fk0 fk1 : ForeignKey) (h : t.FKeys = [fk0, fk1]) :
    IsJoinTable { t with FKeys := [fk1, fk0] } = IsJoinTable t := by
  unfold IsJoinTable
  simp only [h]
  cases t.PKey with
  | none => rfl
  | some pk =>
    simp only [distinctElems_comm fk1.Columns fk0.Columns,
      Nat.add_comm fk1.Columns.length fk0.Columns.length]

/-- C14 at `user_roles`: with its two foreign keys swapped it is still
classified as a join table. -/
theorem IsJoinTable_swap_witness :
    IsJoinTable { userRolesTable with FKeys := [userRolesRoleKey, userRolesUserKey] } = true ∧
      IsJoinTable userRolesTable = true :=
  ⟨(IsJoinTable_swap userRolesTable userRolesUserKey userRolesRoleKey rfl).trans (by decide),
    by decide⟩

/-- C15: `hasExactUnique` does not change when the columns of the primary key
and of each unique constraint are permuted, the unique constraints are
reordered, and the columns asked for are permuted. -/
theorem hasExactUnique_perm (t t1 : Table) (cols cols1 : List String)
    (hpk : (t.PKey = none ∧ t1.PKey = none) ∨
      ∃ pk pk1, t.PKey = some pk ∧ t1.PKey = some pk1 ∧ pk1.Columns.Perm pk.Columns)
    (hun : ∃ us, List.Forall₂ (fun u u1 => u1.Columns.Perm u.Columns) t.Uniques us ∧
      t1.Uniques.Perm us)
    (hcols : cols1.Perm cols) :
    hasExactUnique t1 cols1 = hasExactUnique t cols := by
  obtain ⟨us, hfa, hperm⟩ := hun
  have hany : (t1.Uniques.any fun u => sliceMatch u.Columns cols1) =
      (t.Uniques.any fun u => sliceMatch u.Columns cols) := by
    rw [any_perm _ us t1.Uniques hperm]
    exact any_forall₂ _ _ _
      (fun u u1 hu => sliceMatch_perm u.Columns u1.Columns cols cols1 hu hcols) _ _ hfa
  unfold hasExactUnique
  rw [hcols.length_eq, hany]
  rcases hpk with ⟨h0, h1⟩ | ⟨pk, pk1, h0, h1, hp⟩
  · rw [h0, h1]
  · rw [h0, h1]
    simp only [sliceMatch_perm pk.Columns pk1.Columns cols cols1 hp hcols]

/-- C15 at `user_roles`, whose primary key is on `(user_id, role_id)`: the
columns asked for in the other order, against the primary key listed in the
other order. -/
theorem hasExactUnique_perm_witness :
    hasExactUnique
        { userRolesTable with PKey := some ⟨"user_roles_pkey", ["role_id", "user_id"]⟩ }
        ["role_id", "user_id"] = true ∧
      hasExactUnique userRolesTable ["user_id", "role_id"] = true :=
  ⟨(hasExactUnique_perm userRolesTable
      { userRolesTable with PKey := some ⟨"user_roles_pkey", ["role_id", "user_id"]⟩ }
      ["user_id", "role_id"] ["role_id", "user_id"]
      (Or.inr ⟨_, _, rfl, rfl, List.Perm.swap _ _ _⟩)
      ⟨[], List.Forall₂.nil, List.Perm.refl _⟩
      (List.Perm.swap _ _ _)).trans (by decide),
    by decide⟩

/-! ## The identity of a join table -/

/-- C18: when the primary-key columns are pairwise distinct names of columns
of `t`, and the local columns of each foreign key are repetition-free and
drawn from the columns of `t`, a table classified as a join table has a
primary key on exactly its columns, which are exactly the columns of its two
foreign keys, no column being in both.  That the column names of `t` are
pairwise distinct plays no part. -/
theorem IsJoinTable_covers (t : Table)
    (hpk : ∀ pk, t.PKey = some pk →
      pk.Columns.Nodup ∧ ∀ c ∈ pk.Columns, c ∈ t.Columns.map (fun col => col.Name))
    (hfks : ∀ fk ∈ t.FKeys,
      fk.Columns.Nodup ∧ ∀ c ∈ fk.Columns, c ∈ t.Columns.map (fun col => col.Name))
    (hj : IsJoinTable t = true) :
    ∃ pk fk0 fk1, t.PKey = some pk ∧ t.FKeys = [fk0, fk1] ∧
      (∀ c, c ∈ pk.Columns ↔ c ∈ t.Columns.map (fun col => col.Name)) ∧
      (∀ c, c ∈ pk.Columns ↔ (c ∈ fk0.Columns ∨ c ∈ fk1.Columns)) ∧
      (∀ c, ¬ (c ∈ fk0.Columns ∧ c ∈ fk1.Columns)) := by
  obtain ⟨pk, fk0, fk1, hp, hf, h1, h2, h3⟩ := IsJoinTable_true t hj
  have hdis := (distinctElems_eq_true _ _).1 h3
  obtain ⟨hpn, hps⟩ := hpk pk hp
  obtain ⟨h0n, h0s⟩ := hfks fk0 (by rw [hf]; simp)
  obtain ⟨h1n, h1s⟩ := hfks fk1 (by rw [hf]; simp)
  have hA := same_set_of_subset_length pk.Columns (t.Columns.map (fun col => col.Name)) hpn hps
    (by rw [List.length_map]; omega)
  have hnd : (fk0.Columns ++ fk1.Columns).Nodup := by
    rw [List.nodup_append]
    exact ⟨h0n, h1n, fun c hc0 hc1 => hdis c ⟨hc0, hc1⟩⟩
  have hB := same_set_of_subset_length (fk0.Columns ++ fk1.Columns)
    (t.Columns.map (fun col => col.Name)) hnd
    (by
      intro c hc
      rcases List.mem_append.1 hc with hc | hc
      · exact h0s c hc
      · exact h1s c hc)
    (by rw [List.length_map, List.length_append]; omega)
  refine ⟨pk, fk0, fk1, hp, hf, hA, ?_, hdis⟩
  intro c
  rw [hA c, ← hB c, List.mem_append]

/-- C18 at `user_roles`: its primary key is on `user_id` and `role_id`, its
columns, the columns of its two foreign keys. -/
theorem IsJoinTable_covers_witness :
    ∃ pk fk0 fk1, userRolesTable.PKey = some pk ∧ userRolesTable.FKeys = [fk0, fk1] ∧
      (∀ c, c ∈ pk.Columns ↔ c ∈ userRolesTable.Columns.map (fun col => col.Name)) ∧
      (∀ c, c ∈ pk.Columns ↔ (c ∈ fk0.Columns ∨ c ∈ fk1.Columns)) ∧
      (∀ c, ¬ (c ∈ fk0.Columns ∧ c ∈ fk1.Columns)) :=
  IsJoinTable_covers userRolesTable
    (by
      intro pk h
      simp only [userRolesTable, Option.some.injEq] at h
      subst h
      decide)
    (by
      intro fk h
      simp only [userRolesTable, List.mem_cons, List.mem_singleton, List.not_mem_nil,
        or_false] at h
      rcases h with rfl | rfl <;> decide)
    (by decide)

/-! ## A join table that is referenced -/

/-- C19 fails on the code: the catalog `users`, `roles`, `grants`,
`user_roles` is well formed, `grants` references the join table `user_roles`
and comes before it, so the list of `user_roles` holds the mirrored
relationship of `grants` besides its own two when the many-to-many part reads
it, and the call panics; with `grants` after `user_roles` a map is returned. -/
theorem referenced_join_table_panics :
    wellFormedCatalog [usersTable, rolesTable, grantsTable, userRolesTable] = true ∧
      BuildRelationships [usersTable, rolesTable, grantsTable, userRolesTable] = none ∧
      wellFormedCatalog [usersTable, rolesTable, userRolesTable, grantsTable] = true ∧
      (BuildRelationships [usersTable, rolesTable, userRolesTable, grantsTable]).isSome = true ∧
      (tableLoop (tableNameMap [usersTable, rolesTable, grantsTable, userRolesTable])
          [usersTable, rolesTable, grantsTable] []).map
        (fun m => (RelMap.get m "user_roles").map (fun r => (r.Name, r.Sides.length))) =
        some [("grants_user_role_fkey", 1)] := by
  decide

/-! ## The bound values of a SELECT statement -/

/-- Outside the reference grammar the source drops what LIMIT binds: with a
LIMIT clause that binds its count, the list returned holds the two values of
WHERE only. -/
theorem dropped_limit_value :
    selectUsersLocked.WriteSQL bindingLimitWriters questionDialect 1 =
      ("\nSELECT *\nFROM users\nWHERE id = ? AND name = ?\nLIMIT ?\nFOR UPDATE\n",
        .ok [Arg.int 7, Arg.str "bob"]) :=
  rfl

/-! ## A failing clause -/

/-- C12: if the calls before a clause succeed and the clause fails, `WriteSQL`
returns the error of that clause, no bound value, and the text of the calls
before followed by what the failing clause wrote, with nothing of a later
clause and no terminating newline; and whenever `WriteSQL` returns an error it
is that of such a first failing clause, whose presence predicate holds. -/
theorem SelectQuery.WriteSQL_error (x : expr.Writers) (s : SelectQuery) (d : Dialect)
    (start : Int) :
    (∀ (pre : List ClauseCall) (c : ClauseCall) (post : List ClauseCall) (w : String)
        (args : List Arg) (t err : String),
      s.calls x d = pre ++ c :: post → runCalls start pre "" [] = (w, .ok args) →
      c.run (addLen start args) = (t, .error err) →
      s.WriteSQL x d start = (w ++ t, .error err)) ∧
    (∀ (w1 err : String), s.WriteSQL x d start = (w1, .error err) →
      ∃ pre c post w args t, s.calls x d = pre ++ c :: post ∧ c.present = true ∧
        runCalls start pre "" [] = (w, .ok args) ∧
        c.run (addLen start args) = (t, .error err) ∧ w1 = w ++ t) := by
  constructor
  · intro pre c post w args t err hcalls hpre hc
    rw [SelectQuery.WriteSQL_eq_run, hcalls, runCalls_append, hpre]
    simp only [runCalls, hc, finishWrite]
  · intro w1 err h
    rw [SelectQuery.WriteSQL_eq_run] at h
    have hrun := finishWrite_error _ _ _ h
    obtain ⟨pre, c, post, w, args, t, hcalls, hpre, hc, hw⟩ := runCalls_error _ _ _ _ _ _ hrun
    refine ⟨pre, c, post, w, args, t, hcalls, ?_, hpre, hc, hw⟩
    cases hp : c.present with
    | true => rfl
    | false =>
      have hmem : c ∈ s.calls x d := by
        rw [hcalls]
        simp
      rw [SelectQuery.calls_absent x s d c hmem hp] at hc
      simp at hc

/-- C12 at a statement whose second WHERE condition fails: the error is that
of the WHERE clause, the text stops inside it, and the ORDER BY clause after
it is not rendered. -/
theorem SelectQuery.WriteSQL_error_witness :
    selectUsersFailing.WriteSQL sampleWriters questionDialect 1 =
        ("\nSELECT *\nFROM users\nWHERE id = ? AND ", .error "bad condition") ∧
      ∃ pre c post w args t,
        selectUsersFailing.calls sampleWriters questionDialect = pre ++ c :: post ∧
        c.present = true ∧ runCalls 1 pre "" [] = (w, .ok args) ∧
        c.run (addLen 1 args) = (t, .error "bad condition") ∧
        "\nSELECT *\nFROM users\nWHERE id = ? AND " = w ++ t :=
  ⟨rfl,
    (SelectQuery.WriteSQL_error sampleWriters selectUsersFailing questionDialect 1).2 _ _ rfl⟩

/-! ## Applying modifiers -/

/-- C13: `Apply` is the left fold of the modifiers over the statement, in the
order given; applying `ms1` and then `ms2` is applying `ms1 ++ ms2`; and
`Select(ms)` is `ms` applied to the empty statement. -/
theorem SelectQuery.Apply_fold (s : SelectQuery) (ms1 ms2 : List (mods.QueryMod SelectQuery)) :
    s.Apply ms1 = ms1.foldl (fun q m => m.Apply q) s ∧
      (s.Apply ms1).Apply ms2 = s.Apply (ms1 ++ ms2) ∧
      Bob.Select ms1 = ({} : SelectQuery).Apply ms1 := by
  refine ⟨SelectQuery.Apply_eq_foldl ms1 s, ?_, selectLoop_eq_Apply ms1 {}⟩
  rw [SelectQuery.Apply_eq_foldl, SelectQuery.Apply_eq_foldl, SelectQuery.Apply_eq_foldl,
    List.foldl_append]

/-- C16: the six constructors of set-operation modifiers store the
sub-statement `q` with the tag and ALL flag of their name; applying a
set-operation modifier sets the combinator slot to what the modifier stores
and leaves the other clauses; after two of them, applied one after the other
or through `Apply`, the statement is as after the second alone. -/
theorem SelectQM.setOperation (q : Option Expression) (s : SelectQuery)
    (m1 m2 : mods.Combine) :
    (SelectQM.Union q = ⟨expr.Union, q, false⟩ ∧
      SelectQM.UnionAll q = ⟨expr.Union, q, true⟩ ∧
      SelectQM.Intersect q = ⟨expr.Intersect, q, false⟩ ∧
      SelectQM.IntersectAll q = ⟨expr.Intersect, q, true⟩ ∧
      SelectQM.Except q = ⟨expr.Except, q, false⟩ ∧
      SelectQM.ExceptAll q = ⟨expr.Except, q, true⟩) ∧
    ((m1.Apply s).Combine.Strategy = m1.Strategy ∧ (m1.Apply s).Combine.Query = m1.Query ∧
      (m1.Apply s).Combine.All = m1.All) ∧
    m1.Apply s = { s with Combine := (m1.Apply s).Combine } ∧
    m2.Apply (m1.Apply s) = m2.Apply s ∧
    s.Apply [m1.toQueryMod, m2.toQueryMod] = m2.Apply s ∧
    ((s.Apply [m1.toQueryMod, m2.toQueryMod]).Combine.Strategy = m2.Strategy ∧
      (s.Apply [m1.toQueryMod, m2.toQueryMod]).Combine.Query = m2.Query ∧
      (s.Apply [m1.toQueryMod, m2.toQueryMod]).Combine.All = m2.All) :=
  ⟨⟨rfl, rfl, rfl, rfl, rfl, rfl⟩, ⟨rfl, rfl, rfl⟩, rfl, rfl, rfl, ⟨rfl, rfl, rfl⟩⟩

end Bob
